import Mathlib

/-!
# The physical storage layer: in-memory backend and encoding guard

A shallow embedding of `sdk/physical/inmem/inmem.go` and
`sdk/physical/encoding.go`.

* A Go `string` is a byte sequence, `GoString := List Byte`; Go's `<` and `<=`
  on strings are the byte-wise lexicographic order, which is the order Mathlib
  puts on lists.
* The radix tree of `github.com/armon/go-radix` (an external library) is
  represented by what it denotes: a list of key/value pairs kept in strictly
  ascending key order. `WalkPrefix` visits the keys below a prefix in that
  order and stops as soon as the callback returns `true`.
* Stateful methods are functions from the receiver's state to a result and the
  state afterwards. Calls run one after the other, so the read/write lock has
  no observable effect and is left out, and a call is followed from the moment
  its permit is granted; the permit pool is a counter of permits in use. The
  bodies of the public methods take the pool's `Acquire` and `Release` as a
  parameter, and the methods themselves are those bodies over the counter.
* A `context.Context` is represented by what `ctx.Err()` returns: `none` while
  the context is live, the error once it is done.
* The logger is an output sink; `logOps` is kept in the state, the trace lines
  are not.
-/

namespace Physical

/-! ## Go strings -/

/-- One byte of a Go string. -/
abbrev Byte := Fin 256

/-- A Go string: an immutable sequence of bytes. -/
abbrev GoString := List Byte

/-- A Go byte slice. -/
abbrev Value := List Byte

/-- A Go `[]string`; the `nil` slice is the empty list. -/
abbrev StringSlice := List GoString

/-- A Go `rune` (an `int32` code point). -/
abbrev Rune := Int

/-- The bytes of an ASCII literal. -/
def str (s : String) : GoString := s.data.map (fun c => Fin.ofNat c.toNat)

/-- Go `strings.HasPrefix(s, pre)`. -/
def HasPrefix (s pre : GoString) : Bool := pre.isPrefixOf s

/-- Go `strings.TrimPrefix`: `s` without the leading `pre`, or `s` itself when
`s` does not start with `pre`. -/
def TrimPrefix (s pre : GoString) : GoString :=
  if HasPrefix s pre then s.drop pre.length else s

/-- The byte `'/'`. -/
def slash : Byte := 47

/-- Go `strings.Index(s, sep)` for a one-byte `sep`: the index of the first
occurrence of the byte `c` in `s`, or `-1`. -/
def IndexByte : GoString → Byte → Int
  | [], _ => -1
  | b :: rest, c =>
    if b = c then 0
    else
      let r := IndexByte rest c
      if r = -1 then -1 else r + 1

/-! ## UTF-8 (Go package `unicode/utf8`) -/

/-- The replacement character `utf8.RuneError`, U+FFFD. -/
def RuneError : Rune := 0xFFFD

/-- The tables `first` and `acceptRanges` of `unicode/utf8`: for a byte that
starts a multi-byte sequence, the length of the sequence and the bounds its
second byte has to respect; `none` for an ASCII byte and for a byte that cannot
start a sequence. -/
def leadInfo (b : Byte) : Option (Nat × Nat × Nat) :=
  if 0xC2 ≤ b.val ∧ b.val ≤ 0xDF then some (2, 0x80, 0xBF)
  else if b.val = 0xE0 then some (3, 0xA0, 0xBF)
  else if 0xE1 ≤ b.val ∧ b.val ≤ 0xEC then some (3, 0x80, 0xBF)
  else if b.val = 0xED then some (3, 0x80, 0x9F)
  else if 0xEE ≤ b.val ∧ b.val ≤ 0xEF then some (3, 0x80, 0xBF)
  else if b.val = 0xF0 then some (4, 0x90, 0xBF)
  else if 0xF1 ≤ b.val ∧ b.val ≤ 0xF3 then some (4, 0x80, 0xBF)
  else if b.val = 0xF4 then some (4, 0x80, 0x8F)
  else none

/-- A continuation byte, `0x80..0xBF`. -/
def isCont (b : Byte) : Bool := 0x80 ≤ b.val ∧ b.val ≤ 0xBF

/-- Go `utf8.DecodeRuneInString`: the first rune of `s` and its width in bytes;
`(RuneError, 0)` for the empty string and `(RuneError, 1)` for an invalid or
truncated sequence. -/
def DecodeRuneInString (s : GoString) : Rune × Nat :=
  match s with
  | [] => (RuneError, 0)
  | s0 :: rest =>
    if s0.val < 0x80 then ((s0.val : Int), 1)
    else
      match leadInfo s0 with
      | none => (RuneError, 1)
      | some (sz, lo, hi) =>
        if s.length < sz then (RuneError, 1)
        else
          match rest with
          | [] => (RuneError, 1)
          | s1 :: rest1 =>
            if s1.val < lo ∨ hi < s1.val then (RuneError, 1)
            else if sz ≤ 2 then
              ((((s0.val &&& 0x1F) <<< 6 ||| (s1.val &&& 0x3F) : Nat) : Int), 2)
            else
              match rest1 with
              | [] => (RuneError, 1)
              | s2 :: rest2 =>
                if !isCont s2 then (RuneError, 1)
                else if sz ≤ 3 then
                  ((((s0.val &&& 0x0F) <<< 12 ||| (s1.val &&& 0x3F) <<< 6
                      ||| (s2.val &&& 0x3F) : Nat) : Int), 3)
                else
                  match rest2 with
                  | [] => (RuneError, 1)
                  | s3 :: _ =>
                    if !isCont s3 then (RuneError, 1)
                    else
                      ((((s0.val &&& 0x07) <<< 18 ||| (s1.val &&& 0x3F) <<< 12
                          ||| (s2.val &&& 0x3F) <<< 6 ||| (s3.val &&& 0x3F) : Nat) : Int), 4)

/-- The loop of `utf8.ValidString`, with the number of bytes left as fuel. -/
def validLoop : Nat → GoString → Bool
  | 0, s => s.isEmpty
  | fuel + 1, s =>
    match s with
    | [] => true
    | s0 :: rest =>
      if s0.val < 0x80 then validLoop fuel rest
      else
        match leadInfo s0 with
        | none => false
        | some (sz, lo, hi) =>
          if s.length < sz then false
          else
            match rest with
            | [] => false
            | s1 :: rest1 =>
              if s1.val < lo ∨ hi < s1.val then false
              else if sz = 2 then validLoop fuel rest1
              else
                match rest1 with
                | [] => false
                | s2 :: rest2 =>
                  if !isCont s2 then false
                  else if sz = 3 then validLoop fuel rest2
                  else
                    match rest2 with
                    | [] => false
                    | s3 :: rest3 =>
                      if !isCont s3 then false else validLoop fuel rest3

/-- Go `utf8.ValidString`. -/
def ValidString (s : GoString) : Bool := validLoop s.length s

/-- The loop `for i, r := range s` of `strings.IndexFunc`, with the number of
bytes left as fuel: `i` is the byte offset of the rune being looked at. -/
def indexFuncLoop (f : Rune → Bool) : Nat → Nat → GoString → Int
  | 0, _, _ => -1
  | fuel + 1, i, s =>
    match s with
    | [] => -1
    | _ :: _ =>
      let d := DecodeRuneInString s
      if f d.1 then (i : Int) else indexFuncLoop f fuel (i + d.2) (s.drop d.2)

/-- Go `strings.IndexFunc(s, f)`: the byte offset of the first rune of `s`
satisfying `f`, or `-1`. -/
def IndexFunc (s : GoString) (f : Rune → Bool) : Int := indexFuncLoop f s.length 0 s

/-- The runes a `range` loop over `s` yields, with the number of bytes left as
fuel. -/
def runesLoop : Nat → GoString → List Rune
  | 0, _ => []
  | fuel + 1, s =>
    match s with
    | [] => []
    | _ :: _ =>
      let d := DecodeRuneInString s
      d.1 :: runesLoop fuel (s.drop d.2)

/-- The characters of a Go string: the runes `for _, r := range s` yields. -/
def Runes (s : GoString) : List Rune := runesLoop s.length s

/-- The outcome of one decoding step on `s`: either an ASCII byte read as the
rune of that value, or a step over bytes that are all at least `0x80`. -/
def StepOk (s : GoString) (d : Rune × Nat) : Prop :=
  1 ≤ d.2 ∧
    ((∃ c rest, s = c :: rest ∧ c.val < 0x80 ∧ d = ((c.val : Int), 1)) ∨
      (∀ c ∈ s.take d.2, 0x80 ≤ c.val))

/-! ## Entries, errors, contexts -/

/-- The type `physical.Entry`, as far as the backends here read it. -/
structure Entry where
  Key : GoString
  Value : Value
deriving DecidableEq, Repr

/-- What went wrong in `strconv.Atoi`. -/
inductive NumErr
  | ErrSyntax
  | ErrRange
deriving DecidableEq, Repr

/-- The error values the two files produce or pass on. -/
inductive Error
  | PutDisabledError
  | GetDisabledError
  | DeleteDisabledError
  | ListDisabledError
  | GetInTxnDisabledError
  /-- The error `fmt.Errorf("%s", physical.ErrValueTooLarge)`. -/
  | ValueTooLarge
  | ErrNonUTF8
  | ErrNonPrintable
  /-- The error `context.Canceled`. -/
  | Canceled
  /-- The error `context.DeadlineExceeded`. -/
  | DeadlineExceeded
  /-- A `*strconv.NumError` of `Atoi` for the input `num`. -/
  | NumError (num : GoString) (err : NumErr)
deriving DecidableEq, Repr

/-- A `context.Context`, seen through `ctx.Err()`: `none` as long as the
context is live (`ctx.Done()` is open), the error once it is done. -/
structure Context where
  Err : Option Error
deriving DecidableEq, Repr

/-- A context that is not done. -/
def Context.background : Context := ⟨none⟩

/-! ## The radix tree (`github.com/armon/go-radix`) -/

/-- Keys strictly ascending, in byte-wise lexicographic order. -/
def Ascending (es : List (GoString × Value)) : Prop :=
  es.Pairwise (fun a b => a.1 < b.1)

instance (es : List (GoString × Value)) : Decidable (Ascending es) := by
  unfold Ascending; infer_instance

/-- A `*radix.Tree` holding byte slices: the stored pairs in ascending key
order, which is the order in which the tree's walks visit them. -/
structure Tree where
  entries : List (GoString × Value)
  ordered : Ascending entries
deriving DecidableEq

/-- The constructor `radix.New()`: the empty tree. -/
def Tree.New : Tree := ⟨[], List.Pairwise.nil⟩

/-- The method `Tree.Get`: the value stored under `k`, if any. -/
def Tree.Get (t : Tree) (k : GoString) : Option Value :=
  (t.entries.find? (fun e => e.1 = k)).map Prod.snd

/-- The method `Tree.Insert`: adds `k`, or replaces the value of `k`. -/
def Tree.Insert (t : Tree) (k : GoString) (v : Value) : Tree where
  entries :=
    t.entries.filter (fun e => e.1 < k) ++ (k, v) :: t.entries.filter (fun e => k < e.1)
  ordered := by
    have h := t.ordered
    unfold Ascending at h ⊢
    rw [List.pairwise_append]
    refine ⟨h.filter _, ?_, ?_⟩
    · rw [List.pairwise_cons]
      refine ⟨?_, h.filter _⟩
      intro e he
      simpa using (List.mem_filter.mp he).2
    · intro a ha b hb
      have ha' : a.1 < k := by simpa using (List.mem_filter.mp ha).2
      rcases List.mem_cons.mp hb with rfl | hb
      · exact ha'
      · have hb' : k < b.1 := by simpa using (List.mem_filter.mp hb).2
        exact lt_trans ha' hb'

/-- The method `Tree.Delete`: removes `k` if it is there. -/
def Tree.Delete (t : Tree) (k : GoString) : Tree where
  entries := t.entries.filter (fun e => e.1 ≠ k)
  ordered := List.Pairwise.filter _ t.ordered

/-- The walk of `Tree.WalkPrefix` over the pairs it visits: `fn` is called on
each pair in turn until it returns `true`. -/
def walk {σ : Type} (fn : GoString → Value → σ → Bool × σ) :
    List (GoString × Value) → σ → σ
  | [], st => st
  | e :: rest, st =>
    let r := fn e.1 e.2 st
    if r.1 then r.2 else walk fn rest r.2

/-- The method `Tree.WalkPrefix`: walks the pairs whose key starts with `pre`,
in ascending key order. The state `σ` stands for the variables the callback
closes over. -/
def Tree.WalkPrefix {σ : Type} (t : Tree) (pre : GoString)
    (fn : GoString → Value → σ → Bool × σ) (st : σ) : σ :=
  walk fn (t.entries.filter (fun e => HasPrefix e.1 pre)) st

/-! ## The permit pool -/

/-- Modelled from the spec: the type `physical.PermitPool`
(`sdk/physical/physical.go`), "a fixed-capacity token pool sized at
construction". `held` counts the permits in use. -/
structure PermitPool where
  capacity : Nat
  held : Nat
deriving DecidableEq, Repr

/-- Modelled from the spec: `physical.NewPermitPool`, a pool of the given size
with no permit in use. -/
def NewPermitPool (permits : Nat) : PermitPool := ⟨permits, 0⟩

/-- Modelled from the spec: `PermitPool.Acquire` takes one permit. -/
def PermitPool.Acquire (p : PermitPool) : PermitPool := { p with held := p.held + 1 }

/-- Modelled from the spec: `PermitPool.Release` returns one permit. -/
def PermitPool.Release (p : PermitPool) : PermitPool := { p with held := p.held - 1 }

/-- The two methods of `physical.PermitPool` that the backend calls. The type
is declared in `sdk/physical/physical.go`, so the bodies of the backend's
public methods take its methods as a parameter. -/
structure PoolMethods where
  Acquire : PermitPool → PermitPool
  Release : PermitPool → PermitPool

/-- Modelled from the spec: the methods of the pool of the specification,
`PermitPool.Acquire` and `PermitPool.Release`. -/
def PoolMethods.counting : PoolMethods where
  Acquire := PermitPool.Acquire
  Release := PermitPool.Release

/-- The value of a decimal digit. -/
def digitVal (c : Byte) : Option Nat :=
  if 48 ≤ c.val ∧ c.val ≤ 57 then some (c.val - 48) else none

/-- The digit loop of `strconv.ParseUint` in base 10 for 64 bits: `n` is the
value read so far. The bytes are read from the left; the first byte that is not
a digit is a syntax error, the first digit with which the value no longer fits
64 bits is a range error. -/
def parseDigits : GoString → Nat → Except NumErr Nat
  | [], n => .ok n
  | c :: cs, n =>
    match digitVal c with
    | some d => if 2 ^ 64 ≤ n * 10 + d then .error .ErrRange else parseDigits cs (n * 10 + d)
    | none => .error .ErrSyntax

/-- Go `strconv.Atoi` for a 64-bit `int`: an optional sign followed by one or
more decimal digits; a syntax error otherwise, a range error when the value
does not fit. -/
def Atoi (s : GoString) : Except Error Int :=
  let neg : Bool := s.head? = some 45
  let digits : GoString := if s.head? = some 45 ∨ s.head? = some 43 then s.tail else s
  if digits = [] then .error (.NumError s .ErrSyntax)
  else
    match parseDigits digits 0 with
    | .error err => .error (.NumError s err)
    | .ok n =>
      let v : Int := if neg then -(n : Int) else (n : Int)
      if v < -(2 : Int) ^ 63 ∨ (2 : Int) ^ 63 - 1 < v then .error (.NumError s .ErrRange)
      else .ok v

/-! ## The in-memory backend (`sdk/physical/inmem/inmem.go`) -/

/-- The struct `InmemBackend`. The failure flags are the `uint32` values the
pointers refer to. -/
structure InmemBackend where
  root : Tree
  permitPool : PermitPool
  failGet : Nat
  failPut : Nat
  failDelete : Nat
  failList : Nat
  failGetInTxn : Nat
  logOps : Bool
  maxValueSize : Int
deriving DecidableEq

/-- The constructor `NewInmem`. `parallel` is the constant
`physical.DefaultParallelOperations` and `logAllOps` the value of the variable
`BAO_INMEM_LOG_ALL_OPS`; `conf` is the configuration map. -/
def NewInmem (parallel : Nat) (logAllOps : GoString) (conf : List (GoString × GoString)) :
    Except Error InmemBackend :=
  let mk (maxValueSize : Int) : InmemBackend :=
    { root := Tree.New
      permitPool := NewPermitPool parallel
      failGet := 0
      failPut := 0
      failDelete := 0
      failList := 0
      failGetInTxn := 0
      logOps := logAllOps ≠ []
      maxValueSize := maxValueSize }
  match conf.lookup (str "max_value_size") with
  | some maxValueSizeStr =>
    match Atoi maxValueSizeStr with
    | .error err => .error err
    | .ok maxValueSize => .ok (mk maxValueSize)
  | none => .ok (mk 0)

namespace InmemBackend

/-- The method `PutInternal`: the error returned (`none` for `nil`) and the
backend afterwards. -/
def PutInternal (i : InmemBackend) (ctx : Context) (entry : Entry) :
    Option Error × InmemBackend :=
  if i.failPut ≠ 0 then (some .PutDisabledError, i)
  else
    match ctx.Err with
    | some err => (some err, i)
    | none =>
      if i.maxValueSize > 0 ∧ (entry.Value.length : Int) > i.maxValueSize then
        (some .ValueTooLarge, i)
      else (none, { i with root := i.root.Insert entry.Key entry.Value })

/-- The body of the method `Put`, over the pool methods `m`: `Acquire`, then
`PutInternal`, then the deferred `Release`. -/
def PutWith (m : PoolMethods) (i : InmemBackend) (ctx : Context) (entry : Entry) :
    Option Error × InmemBackend :=
  let i1 := { i with permitPool := m.Acquire i.permitPool }
  let r := i1.PutInternal ctx entry
  (r.1, { r.2 with permitPool := m.Release r.2.permitPool })

/-- The method `Put`: `PutInternal` between taking and returning a permit. -/
def Put (i : InmemBackend) (ctx : Context) (entry : Entry) : Option Error × InmemBackend :=
  PutWith PoolMethods.counting i ctx entry

/-- The method `FailPut`. -/
def FailPut (i : InmemBackend) (fail : Bool) : InmemBackend :=
  { i with failPut := if fail then 1 else 0 }

/-- The method `GetInternal`: the entry (`none` for `nil`) and the error. -/
def GetInternal (i : InmemBackend) (ctx : Context) (key : GoString) :
    Option Entry × Option Error :=
  if i.failGet ≠ 0 then (none, some .GetDisabledError)
  else
    match ctx.Err with
    | some err => (none, some err)
    | none =>
      match i.root.Get key with
      | some raw => (some { Key := key, Value := raw }, none)
      | none => (none, none)

/-- The body of the method `Get`, over the pool methods `m`: `Acquire`, then
`GetInternal`, then the deferred `Release`. -/
def GetWith (m : PoolMethods) (i : InmemBackend) (ctx : Context) (key : GoString) :
    (Option Entry × Option Error) × InmemBackend :=
  let i1 := { i with permitPool := m.Acquire i.permitPool }
  (i1.GetInternal ctx key, { i1 with permitPool := m.Release i1.permitPool })

/-- The method `Get`: `GetInternal` between taking and returning a permit. -/
def Get (i : InmemBackend) (ctx : Context) (key : GoString) :
    (Option Entry × Option Error) × InmemBackend :=
  GetWith PoolMethods.counting i ctx key

/-- The method `FailGet`. -/
def FailGet (i : InmemBackend) (fail : Bool) : InmemBackend :=
  { i with failGet := if fail then 1 else 0 }

/-- The method `FailGetInTxn`. -/
def FailGetInTxn (i : InmemBackend) (fail : Bool) : InmemBackend :=
  { i with failGetInTxn := if fail then 1 else 0 }

/-- The method `DeleteInternal`. -/
def DeleteInternal (i : InmemBackend) (ctx : Context) (key : GoString) :
    Option Error × InmemBackend :=
  if i.failDelete ≠ 0 then (some .DeleteDisabledError, i)
  else
    match ctx.Err with
    | some err => (some err, i)
    | none => (none, { i with root := i.root.Delete key })

/-- The body of the method `Delete`, over the pool methods `m`: `Acquire`, then
`DeleteInternal`, then the deferred `Release`. -/
def DeleteWith (m : PoolMethods) (i : InmemBackend) (ctx : Context) (key : GoString) :
    Option Error × InmemBackend :=
  let i1 := { i with permitPool := m.Acquire i.permitPool }
  let r := i1.DeleteInternal ctx key
  (r.1, { r.2 with permitPool := m.Release r.2.permitPool })

/-- The method `Delete`: `DeleteInternal` between taking and returning a
permit. -/
def Delete (i : InmemBackend) (ctx : Context) (key : GoString) : Option Error × InmemBackend :=
  DeleteWith PoolMethods.counting i ctx key

/-- The method `FailDelete`. -/
def FailDelete (i : InmemBackend) (fail : Bool) : InmemBackend :=
  { i with failDelete := if fail then 1 else 0 }

/-- The variables `out` and `seen` the walk callback of `ListPaginatedInternal`
closes over; `seen` is the key set of the map. -/
structure WalkVars where
  out : StringSlice
  seen : StringSlice
deriving DecidableEq, Repr

/-- The closure `walkFn` of `ListPaginatedInternal`: whether the walk stops,
and the variables afterwards. -/
def walkFn (pre after : GoString) (limit : Int) (s : GoString) (_v : Value) (w : WalkVars) :
    Bool × WalkVars :=
  if limit > 0 ∧ (w.out.length : Int) ≥ limit then (true, w)
  else
    let trimmed := TrimPrefix s pre
    let sep := IndexByte trimmed slash
    if sep = -1 then
      if after ≠ [] ∧ trimmed ≤ after then (false, w)
      else (false, { w with out := w.out ++ [trimmed] })
    else
      let trimmed := trimmed.take (sep + 1).toNat
      if after ≠ [] ∧ trimmed ≤ after then (false, w)
      else if trimmed ∈ w.seen then (false, w)
      else (false, { out := w.out ++ [trimmed], seen := trimmed :: w.seen })

/-- The method `ListPaginatedInternal`: the listing (a `nil` slice is the empty
list) and the error. -/
def ListPaginatedInternal (i : InmemBackend) (ctx : Context) (pre after : GoString)
    (limit : Int) : StringSlice × Option Error :=
  if i.failList ≠ 0 then ([], some .ListDisabledError)
  else
    let w := i.root.WalkPrefix pre (walkFn pre after limit) { out := [], seen := [] }
    match ctx.Err with
    | some err => ([], some err)
    | none => (w.out, none)

/-- The method `ListInternal`. -/
def ListInternal (i : InmemBackend) (ctx : Context) (pre : GoString) :
    StringSlice × Option Error :=
  i.ListPaginatedInternal ctx pre [] (-1)

/-- The body of the method `ListPage`, over the pool methods `m`: `Acquire`,
then `ListPaginatedInternal`, then the deferred `Release`. -/
def ListPageWith (m : PoolMethods) (i : InmemBackend) (ctx : Context) (pre after : GoString)
    (limit : Int) : (StringSlice × Option Error) × InmemBackend :=
  let i1 := { i with permitPool := m.Acquire i.permitPool }
  (i1.ListPaginatedInternal ctx pre after limit,
    { i1 with permitPool := m.Release i1.permitPool })

/-- The method `ListPage`: `ListPaginatedInternal` between taking and returning
a permit. -/
def ListPage (i : InmemBackend) (ctx : Context) (pre after : GoString) (limit : Int) :
    (StringSlice × Option Error) × InmemBackend :=
  ListPageWith PoolMethods.counting i ctx pre after limit

/-- The method `FailList`. -/
def FailList (i : InmemBackend) (fail : Bool) : InmemBackend :=
  { i with failList := if fail then 1 else 0 }

/-- The body of the method `List`, over the pool methods `m`: `Acquire`, then
`ListInternal`, then the deferred `Release`. -/
def ListWith (m : PoolMethods) (i : InmemBackend) (ctx : Context) (pre : GoString) :
    (StringSlice × Option Error) × InmemBackend :=
  let i1 := { i with permitPool := m.Acquire i.permitPool }
  (i1.ListInternal ctx pre, { i1 with permitPool := m.Release i1.permitPool })

/-- The method `List`: `ListInternal` between taking and returning a permit. -/
def List (i : InmemBackend) (ctx : Context) (pre : GoString) :
    (StringSlice × Option Error) × InmemBackend :=
  ListWith PoolMethods.counting i ctx pre

end InmemBackend

/-! ## The backend interface and the encoding guard (`sdk/physical/encoding.go`) -/

/-- The interface `physical.ToggleablePurgemonster`, over a backend whose state
has type `σ`. -/
structure ToggleablePurgemonster (σ : Type) where
  Purge : σ → Context → σ
  SetEnabled : σ → Bool → σ

/-- The interface `physical.Backend`, over a backend whose state has type `σ`:
every method returns its results and the state afterwards. `purgemonster` is
what the type assertion `b.(ToggleablePurgemonster)` yields. -/
structure Backend (σ : Type) where
  Put : σ → Context → Entry → Option Error × σ
  Get : σ → Context → GoString → (Option Entry × Option Error) × σ
  Delete : σ → Context → GoString → Option Error × σ
  List : σ → Context → GoString → (StringSlice × Option Error) × σ
  ListPage : σ → Context → GoString → GoString → Int → (StringSlice × Option Error) × σ
  purgemonster : Option (ToggleablePurgemonster σ)

/-- The in-memory backend as a `physical.Backend`; it has no `Purge` and no
`SetEnabled` method. -/
def InmemBackend.asBackend : Backend InmemBackend where
  Put := InmemBackend.Put
  Get := InmemBackend.Get
  Delete := InmemBackend.Delete
  List := InmemBackend.List
  ListPage := InmemBackend.ListPage
  purgemonster := none

/-- The struct `StorageEncoding`: the wrapped backend. -/
structure StorageEncoding (σ : Type) where
  Backend : Backend σ

namespace StorageEncoding

variable {σ : Type}

/-- The method `containsNonPrintableChars`. `IsPrint` is Go's
`unicode.IsPrint`. -/
def containsNonPrintableChars (IsPrint : Rune → Bool) (_e : StorageEncoding σ)
    (key : GoString) : Bool :=
  let idx := IndexFunc key (fun c => !IsPrint c)
  idx ≠ -1

/-- The method `StorageEncoding.Put`, on the wrapped backend's state `s`. -/
def Put (IsPrint : Rune → Bool) (e : StorageEncoding σ) (s : σ) (ctx : Context)
    (entry : Entry) : Option Error × σ :=
  if !ValidString entry.Key then (some .ErrNonUTF8, s)
  else if e.containsNonPrintableChars IsPrint entry.Key then (some .ErrNonPrintable, s)
  else e.Backend.Put s ctx entry

/-- The method `StorageEncoding.Delete`, on the wrapped backend's state `s`. -/
def Delete (IsPrint : Rune → Bool) (e : StorageEncoding σ) (s : σ) (ctx : Context)
    (key : GoString) : Option Error × σ :=
  if !ValidString key then (some .ErrNonUTF8, s)
  else if e.containsNonPrintableChars IsPrint key then (some .ErrNonPrintable, s)
  else e.Backend.Delete s ctx key

/-- The method `StorageEncoding.Purge`. -/
def Purge (e : StorageEncoding σ) (s : σ) (ctx : Context) : σ :=
  match e.Backend.purgemonster with
  | some purgeable => purgeable.Purge s ctx
  | none => s

/-- The method `StorageEncoding.SetEnabled`. -/
def SetEnabled (e : StorageEncoding σ) (s : σ) (enabled : Bool) : σ :=
  match e.Backend.purgemonster with
  | some purgeable => purgeable.SetEnabled s enabled
  | none => s

end StorageEncoding

/-- The constructor `NewStorageEncoding`: the guard as a `physical.Backend`.
`Get`, `List` and `ListPage` are the promoted methods of the embedded backend;
`Purge` and `SetEnabled` are the guard's own. -/
def NewStorageEncoding {σ : Type} (IsPrint : Rune → Bool) (b : Backend σ) : Backend σ :=
  let e : StorageEncoding σ := { Backend := b }
  { Put := e.Put IsPrint
    Get := b.Get
    Delete := e.Delete IsPrint
    List := b.List
    ListPage := b.ListPage
    purgemonster := some { Purge := e.Purge, SetEnabled := e.SetEnabled } }

/-- A backend that only counts the `Put` and `Delete` calls it receives. -/
def countingBackend : Backend Nat where
  Put := fun n _ _ => (none, n + 1)
  Get := fun n _ _ => ((none, none), n)
  Delete := fun n _ _ => (none, n + 1)
  List := fun n _ _ => (([], none), n)
  ListPage := fun n _ _ _ _ => (([], none), n)
  purgemonster := none

/-- The printable ASCII characters, `U+0020..U+007E`: what `unicode.IsPrint`
is on the runes below `U+0080`. -/
def isPrintASCII (r : Rune) : Bool := 0x20 ≤ r ∧ r ≤ 0x7E

/-! ## Reference definitions for the listing -/

/-- The keys stored in the backend. -/
def InmemBackend.keys (i : InmemBackend) : StringSlice := i.root.entries.map Prod.fst

/-- The child segment of a stored key `k` under the prefix `p`, in the words of
the specification: the remainder of `k` after removing `p` if that remainder
contains no `'/'`, and otherwise the remainder truncated just after its first
`'/'`. -/
def child (p k : GoString) : GoString :=
  let remainder := k.drop p.length
  if slash ∈ remainder then remainder.takeWhile (fun c => c ≠ slash) ++ [slash]
  else remainder

/-- The page of a full listing in the words of the specification: the elements
strictly greater than `after`, cut to the first `limit` of them when `limit` is
positive. -/
def pageOf (after : GoString) (limit : Int) (listing : StringSlice) : StringSlice :=
  let rest := listing.filter (fun x => after < x)
  if limit > 0 then rest.take limit.toNat else rest

/-- The page of a full listing as `ListPage` computes it: an empty `after`
keeps every element, any other `after` keeps the elements strictly greater than
it; the result is cut to the first `limit` elements when `limit` is positive. -/
def pageFrom (after : GoString) (limit : Int) (listing : StringSlice) : StringSlice :=
  let rest := listing.filter (fun x => after = [] ∨ after < x)
  if limit > 0 then rest.take limit.toNat else rest

/-- The segment `walkFn` derives from the key `s`: the key without the prefix,
cut just after its first `'/'` if it has one. -/
def segment (pre s : GoString) : GoString :=
  let trimmed := TrimPrefix s pre
  let sep := IndexByte trimmed slash
  if sep = -1 then trimmed else trimmed.take (sep + 1).toNat

/-- Whether `walkFn` treats the key `s` as lying in a subtree. -/
def isSubtree (pre s : GoString) : Bool := IndexByte (TrimPrefix s pre) slash ≠ -1

/-- What a walk without a limit appends to `out`, given the markers already in
`seen`. -/
def appended (pre after : GoString) : List (GoString × Value) → StringSlice → StringSlice
  | [], _ => []
  | e :: rest, seen =>
    if after ≠ [] ∧ segment pre e.1 ≤ after then appended pre after rest seen
    else if isSubtree pre e.1 then
      if segment pre e.1 ∈ seen then appended pre after rest seen
      else segment pre e.1 :: appended pre after rest (segment pre e.1 :: seen)
    else segment pre e.1 :: appended pre after rest seen

/-- A remainder cut just after its first `'/'`, by recursion on the bytes. -/
def cut : GoString → GoString
  | [] => []
  | c :: r => if c = slash then [slash] else c :: cut r

/-! ## Clients of the backends -/

/-- The pagination loop of the specification: call `ListPage(p, after, n)`
from the given cursor and set the cursor to the last item of each page, until a
page comes back empty. The result is the pages before the empty one; `fuel`
bounds the number of calls, and the result is `none` when the loop has not
ended within it. -/
def paginate (ctx : Context) (p : GoString) (n : Int) :
    Nat → GoString → InmemBackend → Option (List StringSlice)
  | 0, _, _ => none
  | fuel + 1, after, i =>
    let r := i.ListPage ctx p after n
    match r.1.1.getLast? with
    | none => some []
    | some last => (paginate ctx p n fuel last r.2).map (fun pages => r.1.1 :: pages)

/-- A call as a backend receives it. -/
inductive Call
  | Put (ctx : Context) (entry : Entry)
  | Get (ctx : Context) (key : GoString)
  | Delete (ctx : Context) (key : GoString)
  | List (ctx : Context) (pre : GoString)
  | ListPage (ctx : Context) (pre after : GoString) (limit : Int)
  | Purge (ctx : Context)
  | SetEnabled (enabled : Bool)
deriving DecidableEq

/-- A backend with the toggleable-purge capability whose state is the record
of the calls it has received, oldest first. -/
def recordingBackend : Backend (List Call) where
  Put := fun log ctx entry => (none, log ++ [Call.Put ctx entry])
  Get := fun log ctx key => ((none, none), log ++ [Call.Get ctx key])
  Delete := fun log ctx key => (none, log ++ [Call.Delete ctx key])
  List := fun log ctx pre => (([], none), log ++ [Call.List ctx pre])
  ListPage := fun log ctx pre after limit =>
    (([], none), log ++ [Call.ListPage ctx pre after limit])
  purgemonster := some
    { Purge := fun log ctx => log ++ [Call.Purge ctx]
      SetEnabled := fun log enabled => log ++ [Call.SetEnabled enabled] }

/-- A call issued through the encoding guard. -/
inductive GuardCall
  | Put (ctx : Context) (entry : Entry)
  | Delete (ctx : Context) (key : GoString)

/-- The in-memory backend after a sequence of `Put` and `Delete` calls issued
through the encoding guard wrapped around it. -/
def runGuard (IsPrint : Rune → Bool) : List GuardCall → InmemBackend → InmemBackend
  | [], i => i
  | GuardCall.Put ctx entry :: rest, i =>
    runGuard IsPrint rest ((NewStorageEncoding IsPrint InmemBackend.asBackend).Put i ctx entry).2
  | GuardCall.Delete ctx key :: rest, i =>
    runGuard IsPrint rest ((NewStorageEncoding IsPrint InmemBackend.asBackend).Delete i ctx key).2

/-! ## Sample states -/

/-- A backend as `NewInmem` builds it with an empty configuration, holding the
given pairs (inserted one after the other). -/
def inmemOf (kvs : List (GoString × Value)) : InmemBackend :=
  { root := kvs.foldl (fun t e => t.Insert e.1 e.2) Tree.New
    permitPool := NewPermitPool 128
    failGet := 0
    failPut := 0
    failDelete := 0
    failList := 0
    failGetInTxn := 0
    logOps := false
    maxValueSize := 0 }

/-! ## Evaluations -/

example : NewInmem 128 [] [] = .ok (inmemOf []) := by rfl
example : (NewInmem 128 [] [(str "max_value_size", str "4")]).toOption.map
    (fun b => b.maxValueSize) = some 4 := by decide
example : Atoi (str "-12") = .ok (-12) := by rfl
example : Atoi (str "+") = .error (.NumError (str "+") .ErrSyntax) := by rfl
example : Atoi (str "9223372036854775808")
    = .error (.NumError (str "9223372036854775808") .ErrRange) := by rfl
example : Atoi (str "99999999999999999999x")
    = .error (.NumError (str "99999999999999999999x") .ErrRange) := by rfl
example : Atoi (str "9223372036854775808x")
    = .error (.NumError (str "9223372036854775808x") .ErrSyntax) := by rfl
example : Atoi (str "-9223372036854775808") = .ok (-9223372036854775808) := by rfl
example : ((inmemOf [(str "d", []), (str "a/c", []), (str "a/b", [])]).List ⟨none⟩ []).1
    = ([str "a/", str "d"], none) := by decide
example : ((inmemOf [(str "d", []), (str "a/c", []), (str "a/b", [])]).List ⟨none⟩ (str "a/")).1
    = ([str "b", str "c"], none) := by decide
example : ((inmemOf [(str "d", []), (str "c", []), (str "b", []), (str "a", [])]).ListPage
    ⟨none⟩ [] (str "b") 2).1 = ([str "c", str "d"], none) := by decide
example : ((inmemOf [(str "a", [])]).ListPage ⟨none⟩ (str "a") [] 0).1
    = ([[]], none) := by decide
example : str "a/b" = [97, 47, 98] := by decide
example : IndexByte (str "ab/c/") slash = 2 := by decide
example : TrimPrefix (str "a/b") (str "a/") = str "b" := by decide
example : ValidString [0xE2, 0x82, 0xAC] = true := by decide
example : ValidString [0xE2, 0x82] = false := by decide
example : ValidString [0xC0, 0x80] = false := by decide
example : ValidString [0xED, 0xA0, 0x80] = false := by decide
example : DecodeRuneInString [0xE2, 0x82, 0xAC, 0x41] = (0x20AC, 3) := by decide
example : Runes [0xE2, 0x82, 0xAC, 0x41, 0xFF] = [0x20AC, 0x41, 0xFFFD] := by decide
example : IndexFunc [0xE2, 0x82, 0xAC, 0x41, 0x09] (fun r => r < 0x20) = 4 := by decide

/-! ## The tree operations -/

theorem Tree.ext_entries {t u : Tree} (h : t.entries = u.entries) : t = u := by
  cases t; cases u; cases h; rfl

theorem Tree.get_eq_none_iff (t : Tree) (k : GoString) :
    t.Get k = none ↔ k ∉ t.entries.map Prod.fst := by
  unfold Tree.Get
  simp only [Option.map_eq_none', List.find?_eq_none, decide_eq_true_eq, List.mem_map,
    not_exists, not_and]

theorem Tree.get_eq_some_iff (t : Tree) (k : GoString) (v : Value) :
    t.Get k = some v ↔ (k, v) ∈ t.entries := by
  obtain ⟨es, hes⟩ := t
  unfold Tree.Get
  simp only
  induction es with
  | nil => simp
  | cons e rest ih =>
    have hrest : Ascending rest := (List.pairwise_cons.mp hes).2
    have hhead := (List.pairwise_cons.mp hes).1
    by_cases hk : e.1 = k
    · rw [List.find?_cons_of_pos _ (by simpa using hk)]
      constructor
      · intro h
        simp only [Option.map_some', Option.some.injEq] at h
        rw [← hk, ← h]
        exact List.mem_cons_self _ _
      · intro h
        rcases List.mem_cons.mp h with h | h
        · rw [← h]; rfl
        · have := hhead _ h
          rw [hk] at this
          exact absurd this (lt_irrefl _)
    · rw [List.find?_cons_of_neg _ (by simpa using hk), ih hrest]
      constructor
      · intro h
        exact List.mem_cons_of_mem _ h
      · intro h
        rcases List.mem_cons.mp h with h | h
        · exact absurd (by rw [← h]) hk
        · exact h

theorem Tree.mem_insert (t : Tree) (k : GoString) (v : Value) (e : GoString × Value) :
    e ∈ (t.Insert k v).entries ↔ e = (k, v) ∨ (e ∈ t.entries ∧ e.1 ≠ k) := by
  unfold Tree.Insert
  simp only [List.mem_append, List.mem_filter, List.mem_cons, decide_eq_true_eq]
  constructor
  · rintro (⟨h, hlt⟩ | h | ⟨h, hlt⟩)
    · exact Or.inr ⟨h, ne_of_lt hlt⟩
    · exact Or.inl h
    · exact Or.inr ⟨h, ne_of_gt hlt⟩
  · rintro (h | ⟨h, hne⟩)
    · exact Or.inr (Or.inl h)
    · rcases lt_or_gt_of_ne hne with hlt | hgt
      · exact Or.inl ⟨h, hlt⟩
      · exact Or.inr (Or.inr ⟨h, hgt⟩)

theorem Tree.mem_delete (t : Tree) (k : GoString) (e : GoString × Value) :
    e ∈ (t.Delete k).entries ↔ e ∈ t.entries ∧ e.1 ≠ k := by
  unfold Tree.Delete
  simp [List.mem_filter]

theorem Tree.get_insert_self (t : Tree) (k : GoString) (v : Value) :
    (t.Insert k v).Get k = some v := by
  rw [Tree.get_eq_some_iff, Tree.mem_insert]
  exact Or.inl rfl

theorem Tree.get_delete_self (t : Tree) (k : GoString) : (t.Delete k).Get k = none := by
  rw [Tree.get_eq_none_iff]
  intro h
  obtain ⟨e, he, hk⟩ := List.mem_map.mp h
  exact ((Tree.mem_delete t k e).mp he).2 hk

theorem Tree.delete_absent (t : Tree) (k : GoString) (h : k ∉ t.entries.map Prod.fst) :
    t.Delete k = t := by
  apply Tree.ext_entries
  unfold Tree.Delete
  simp only
  rw [List.filter_eq_self]
  intro e he
  simp only [ne_eq, decide_not, Bool.not_eq_eq_eq_not, Bool.not_true, decide_eq_false_iff_not]
  intro hk
  exact h (List.mem_map.mpr ⟨e, he, hk⟩)

/-! ## The public methods and their internal counterparts -/

theorem put_eq (i : InmemBackend) (ctx : Context) (entry : Entry) :
    i.Put ctx entry = i.PutInternal ctx entry := by
  obtain ⟨root, pool, fg, fp, fd, fl, ft, lo, mv⟩ := i
  obtain ⟨cap, held⟩ := pool
  obtain ⟨cerr⟩ := ctx
  unfold InmemBackend.Put InmemBackend.PutWith InmemBackend.PutInternal
  simp only [PoolMethods.counting, PermitPool.Acquire, PermitPool.Release]
  by_cases h1 : fp = 0
  · cases cerr with
    | some err => simp [h1]
    | none =>
      by_cases h2 : mv > 0 ∧ (entry.Value.length : Int) > mv
      · simp [h1, h2]
      · simp [h1, h2]
  · simp [h1]

theorem delete_eq (i : InmemBackend) (ctx : Context) (key : GoString) :
    i.Delete ctx key = i.DeleteInternal ctx key := by
  obtain ⟨root, pool, fg, fp, fd, fl, ft, lo, mv⟩ := i
  obtain ⟨cap, held⟩ := pool
  obtain ⟨cerr⟩ := ctx
  unfold InmemBackend.Delete InmemBackend.DeleteWith InmemBackend.DeleteInternal
  simp only [PoolMethods.counting, PermitPool.Acquire, PermitPool.Release]
  by_cases h1 : fd = 0
  · cases cerr with
    | some err => simp [h1]
    | none => simp [h1]
  · simp [h1]

theorem get_eq (i : InmemBackend) (ctx : Context) (key : GoString) :
    i.Get ctx key = (i.GetInternal ctx key, i) := by
  obtain ⟨root, pool, fg, fp, fd, fl, ft, lo, mv⟩ := i
  obtain ⟨cap, held⟩ := pool
  unfold InmemBackend.Get InmemBackend.GetWith InmemBackend.GetInternal
  simp [PoolMethods.counting, PermitPool.Acquire, PermitPool.Release]

theorem listPage_eq (i : InmemBackend) (ctx : Context) (pre after : GoString) (limit : Int) :
    i.ListPage ctx pre after limit = (i.ListPaginatedInternal ctx pre after limit, i) := by
  obtain ⟨root, pool, fg, fp, fd, fl, ft, lo, mv⟩ := i
  obtain ⟨cap, held⟩ := pool
  unfold InmemBackend.ListPage InmemBackend.ListPageWith InmemBackend.ListPaginatedInternal
  simp [PoolMethods.counting, PermitPool.Acquire, PermitPool.Release]

theorem list_eq (i : InmemBackend) (ctx : Context) (pre : GoString) :
    i.List ctx pre = (i.ListPaginatedInternal ctx pre [] (-1), i) := by
  obtain ⟨root, pool, fg, fp, fd, fl, ft, lo, mv⟩ := i
  obtain ⟨cap, held⟩ := pool
  unfold InmemBackend.List InmemBackend.ListWith InmemBackend.ListInternal
    InmemBackend.ListPaginatedInternal
  simp [PoolMethods.counting, PermitPool.Acquire, PermitPool.Release]

theorem putInternal_ok (i : InmemBackend) (ctx : Context) (entry : Entry)
    (hput : i.failPut = 0) (hctx : ctx.Err = none)
    (hsize : i.maxValueSize ≤ 0 ∨ (entry.Value.length : Int) ≤ i.maxValueSize) :
    i.PutInternal ctx entry = (none, { i with root := i.root.Insert entry.Key entry.Value }) := by
  unfold InmemBackend.PutInternal
  have h2 : ¬(i.maxValueSize > 0 ∧ (entry.Value.length : Int) > i.maxValueSize) := by
    rintro ⟨h, h'⟩
    rcases hsize with h3 | h3 <;> omega
  simp [hput, hctx, h2]

theorem deleteInternal_ok (i : InmemBackend) (ctx : Context) (key : GoString)
    (hdel : i.failDelete = 0) (hctx : ctx.Err = none) :
    i.DeleteInternal ctx key = (none, { i with root := i.root.Delete key }) := by
  unfold InmemBackend.DeleteInternal
  simp [hdel, hctx]

theorem getInternal_ok (i : InmemBackend) (ctx : Context) (key : GoString)
    (hget : i.failGet = 0) (hctx : ctx.Err = none) :
    i.GetInternal ctx key = ((i.root.Get key).map (fun raw => { Key := key, Value := raw }), none) := by
  unfold InmemBackend.GetInternal
  simp only [hget, hctx, ne_eq, not_true_eq_false, if_false]
  cases i.root.Get key <;> rfl

/-! ## Round trips -/

/-- C1: on the in-memory backend, with the put and get flags off, a live
context and a value within the size limit, `Put(k, v)` returns no error and a
`Get(k)` right after it returns the entry with key `k` and value `v`, whatever
was stored before. -/
theorem put_get_round_trip (i : InmemBackend) (ctx : Context) (k : GoString) (v : Value)
    (hput : i.failPut = 0) (hget : i.failGet = 0) (hctx : ctx.Err = none)
    (hsize : i.maxValueSize ≤ 0 ∨ (v.length : Int) ≤ i.maxValueSize) :
    (i.Put ctx { Key := k, Value := v }).1 = none ∧
      ((i.Put ctx { Key := k, Value := v }).2.Get ctx k).1
        = (some { Key := k, Value := v }, none) := by
  rw [put_eq, putInternal_ok i ctx _ hput hctx hsize, get_eq]
  refine ⟨rfl, ?_⟩
  simp only
  rw [getInternal_ok _ ctx k (by exact hget) hctx]
  simp only
  rw [Tree.get_insert_self]
  rfl

theorem put_get_round_trip_witness :
    ((inmemOf [(str "k", [1])]).Put ⟨none⟩ { Key := str "k", Value := [7, 8] }).1 = none ∧
      (((inmemOf [(str "k", [1])]).Put ⟨none⟩ { Key := str "k", Value := [7, 8] }).2.Get
          ⟨none⟩ (str "k")).1 = (some { Key := str "k", Value := [7, 8] }, none) :=
  put_get_round_trip (inmemOf [(str "k", [1])]) ⟨none⟩ (str "k") [7, 8] rfl rfl rfl
    (Or.inl (by decide))

/-- C2: with the delete and get flags off and a live context, `Delete(k)`
returns no error and a `Get(k)` right after it returns a nil entry and a nil
error, whether or not `k` was stored. -/
theorem delete_get_absent (i : InmemBackend) (ctx : Context) (k : GoString)
    (hdel : i.failDelete = 0) (hget : i.failGet = 0) (hctx : ctx.Err = none) :
    (i.Delete ctx k).1 = none ∧ ((i.Delete ctx k).2.Get ctx k).1 = (none, none) := by
  rw [delete_eq, deleteInternal_ok i ctx k hdel hctx, get_eq]
  refine ⟨rfl, ?_⟩
  simp only
  rw [getInternal_ok _ ctx k (by exact hget) hctx]
  simp only
  rw [Tree.get_delete_self]
  rfl

theorem delete_get_absent_witness :
    ((inmemOf [(str "k", [1])]).Delete ⟨none⟩ (str "k")).1 = none ∧
      (((inmemOf [(str "k", [1])]).Delete ⟨none⟩ (str "k")).2.Get ⟨none⟩ (str "k")).1
        = (none, none) :=
  delete_get_absent (inmemOf [(str "k", [1])]) ⟨none⟩ (str "k") rfl rfl rfl

/-! ## Construction -/

theorem newInmem_fields {parallel : Nat} {logAllOps : GoString}
    {conf : List (GoString × GoString)} {b : InmemBackend}
    (h : NewInmem parallel logAllOps conf = .ok b) :
    b.root = Tree.New ∧ b.failGet = 0 ∧ b.failPut = 0 ∧ b.failDelete = 0 ∧ b.failList = 0 ∧
      b.failGetInTxn = 0 ∧ b.permitPool = NewPermitPool parallel := by
  unfold NewInmem at h
  cases hl : conf.lookup (str "max_value_size") with
  | none =>
    rw [hl] at h
    simp only [Except.ok.injEq] at h
    subst h
    simp
  | some m =>
    rw [hl] at h
    simp only at h
    cases ha : Atoi m with
    | error err => rw [ha] at h; cases h
    | ok mv =>
      rw [ha] at h
      simp only [Except.ok.injEq] at h
      subst h
      simp

theorem newInmem_absent (parallel : Nat) (logAllOps : GoString)
    (conf : List (GoString × GoString)) (h : conf.lookup (str "max_value_size") = none) :
    ∃ b, NewInmem parallel logAllOps conf = .ok b ∧ b.maxValueSize = 0 := by
  unfold NewInmem
  rw [h]
  exact ⟨_, rfl, rfl⟩

theorem newInmem_atoi (parallel : Nat) (logAllOps : GoString)
    (conf : List (GoString × GoString)) (m : GoString) (mv : Int)
    (h : conf.lookup (str "max_value_size") = some m) (ha : Atoi m = .ok mv) :
    ∃ b, NewInmem parallel logAllOps conf = .ok b ∧ b.maxValueSize = mv := by
  unfold NewInmem
  rw [h]
  simp only [ha]
  exact ⟨_, rfl, rfl⟩

/-! ## Absent keys -/

/-- C3: with the get flag off and a live context, `Get` never returns an error;
for a key that is not stored it returns a nil entry and a nil error, it returns
a non-nil entry exactly when the key is stored, and on a backend that
`NewInmem` has just built every key gets a nil entry and a nil error. -/
theorem get_missing_is_success (i : InmemBackend) (ctx : Context) (k : GoString)
    (hget : i.failGet = 0) (hctx : ctx.Err = none) :
    (k ∉ i.keys → (i.Get ctx k).1 = (none, none)) ∧
      ((i.Get ctx k).1.1 ≠ none ↔ k ∈ i.keys) ∧
      (i.Get ctx k).1.2 = none ∧
      (∀ (parallel : Nat) (logAllOps : GoString) (conf : List (GoString × GoString))
          (b : InmemBackend), NewInmem parallel logAllOps conf = .ok b →
          (b.Get ctx k).1 = (none, none)) := by
  have hnone : ∀ j : InmemBackend, j.failGet = 0 → k ∉ j.keys →
      (j.Get ctx k).1 = (none, none) := by
    intro j hj hk
    rw [get_eq]
    simp only
    rw [getInternal_ok j ctx k hj hctx, (Tree.get_eq_none_iff j.root k).mpr hk]
    rfl
  refine ⟨hnone i hget, ?_, ?_, ?_⟩
  · rw [get_eq]
    simp only
    rw [getInternal_ok i ctx k hget hctx]
    simp only [ne_eq, Option.map_eq_none']
    rw [Tree.get_eq_none_iff]
    exact not_not
  · rw [get_eq]
    simp only
    rw [getInternal_ok i ctx k hget hctx]
  · intro parallel logAllOps conf b hb
    obtain ⟨hroot, hfg, -⟩ := newInmem_fields hb
    apply hnone b hfg
    unfold InmemBackend.keys
    rw [hroot]
    simp [Tree.New]

theorem get_missing_is_success_witness :
    (str "x" ∉ (inmemOf [(str "k", [1])]).keys →
        ((inmemOf [(str "k", [1])]).Get ⟨none⟩ (str "x")).1 = (none, none)) ∧
      (((inmemOf [(str "k", [1])]).Get ⟨none⟩ (str "x")).1.1 ≠ none ↔
        str "x" ∈ (inmemOf [(str "k", [1])]).keys) ∧
      ((inmemOf [(str "k", [1])]).Get ⟨none⟩ (str "x")).1.2 = none ∧
      (∀ (parallel : Nat) (logAllOps : GoString) (conf : List (GoString × GoString))
          (b : InmemBackend), NewInmem parallel logAllOps conf = .ok b →
          (b.Get ⟨none⟩ (str "x")).1 = (none, none)) :=
  get_missing_is_success (inmemOf [(str "k", [1])]) ⟨none⟩ (str "x") rfl rfl

/-- C4: with the delete flag off and a live context, `Delete` of a key that is
not stored returns no error and leaves the stored entries, and the whole
backend, as they were. -/
theorem delete_absent_noop (i : InmemBackend) (ctx : Context) (k : GoString)
    (hdel : i.failDelete = 0) (hctx : ctx.Err = none) (habs : k ∉ i.keys) :
    (i.Delete ctx k).1 = none ∧ (i.Delete ctx k).2.root.entries = i.root.entries ∧
      (i.Delete ctx k).2 = i := by
  rw [delete_eq, deleteInternal_ok i ctx k hdel hctx]
  simp only
  rw [Tree.delete_absent i.root k habs]
  exact ⟨trivial, rfl, rfl⟩

theorem delete_absent_noop_witness :
    ((inmemOf [(str "k", [1])]).Delete ⟨none⟩ (str "x")).1 = none ∧
      ((inmemOf [(str "k", [1])]).Delete ⟨none⟩ (str "x")).2.root.entries
        = (inmemOf [(str "k", [1])]).root.entries ∧
      ((inmemOf [(str "k", [1])]).Delete ⟨none⟩ (str "x")).2 = inmemOf [(str "k", [1])] :=
  delete_absent_noop (inmemOf [(str "k", [1])]) ⟨none⟩ (str "x") rfl rfl (by decide)

/-! ## The size limit -/

theorem putInternal_err (i : InmemBackend) (ctx : Context) (entry : Entry)
    (hput : i.failPut = 0) (hctx : ctx.Err = none) :
    (i.PutInternal ctx entry).1 =
      if 0 < i.maxValueSize ∧ i.maxValueSize < (entry.Value.length : Int) then
        some Error.ValueTooLarge
      else none := by
  unfold InmemBackend.PutInternal
  simp only [hput, hctx, ne_eq, not_true_eq_false, if_false, gt_iff_lt]
  split_ifs <;> rfl

/-- C7: with the put flag off and a live context, `Put` on a backend whose
limit is `maxValueSize` fails with the value-too-large error if and only if
`maxValueSize > 0` and the value is longer than `maxValueSize`, and returns no
error otherwise. A backend built with `max_value_size` set to `4` rejects every
5-byte value and accepts every 4-byte value; one built with the option absent
or set to `0` accepts every value; one built with the option set to the
decimal form of any integer `mv` has that integer as its limit. -/
theorem value_too_large_iff (i : InmemBackend) (ctx : Context) (entry : Entry)
    (hput : i.failPut = 0) (hctx : ctx.Err = none) :
    ((i.Put ctx entry).1 = some Error.ValueTooLarge ↔
        0 < i.maxValueSize ∧ i.maxValueSize < (entry.Value.length : Int)) ∧
      (¬(0 < i.maxValueSize ∧ i.maxValueSize < (entry.Value.length : Int)) →
        (i.Put ctx entry).1 = none) ∧
      (∀ (parallel : Nat) (logAllOps : GoString), ∃ b : InmemBackend,
        NewInmem parallel logAllOps [(str "max_value_size", str "4")] = .ok b ∧
        b.maxValueSize = 4 ∧
        ∀ (k : GoString) (v : Value),
          (v.length = 5 → (b.Put ctx { Key := k, Value := v }).1 = some Error.ValueTooLarge) ∧
          (v.length = 4 → (b.Put ctx { Key := k, Value := v }).1 = none)) ∧
      (∀ (parallel : Nat) (logAllOps : GoString) (conf : List (GoString × GoString)),
        (conf.lookup (str "max_value_size") = none ∨
          conf.lookup (str "max_value_size") = some (str "0")) →
        ∃ b : InmemBackend, NewInmem parallel logAllOps conf = .ok b ∧
          ∀ e : Entry, (b.Put ctx e).1 = none) ∧
      (∀ (parallel : Nat) (logAllOps : GoString) (conf : List (GoString × GoString))
          (m : GoString) (mv : Int),
        conf.lookup (str "max_value_size") = some m → Atoi m = .ok mv →
        ∃ b : InmemBackend, NewInmem parallel logAllOps conf = .ok b ∧ b.maxValueSize = mv ∧
          ∀ e : Entry, ((b.Put ctx e).1 = some Error.ValueTooLarge ↔
            0 < mv ∧ mv < (e.Value.length : Int))) := by
  have hiff : ∀ (j : InmemBackend) (e : Entry), j.failPut = 0 →
      ((j.Put ctx e).1 = some Error.ValueTooLarge ↔
        0 < j.maxValueSize ∧ j.maxValueSize < (e.Value.length : Int)) := by
    intro j e hj
    rw [put_eq, putInternal_err j ctx e hj hctx]
    split_ifs with h
    · simp [h]
    · simp [h]
  refine ⟨hiff i entry hput, ?_, ?_, ?_, ?_⟩
  · intro h
    rw [put_eq, putInternal_err i ctx entry hput hctx, if_neg h]
  · intro parallel logAllOps
    obtain ⟨b, hb, hmv⟩ := newInmem_atoi parallel logAllOps
      [(str "max_value_size", str "4")] (str "4") 4 (by decide) (by rfl)
    refine ⟨b, hb, hmv, ?_⟩
    obtain ⟨-, -, hfp, -⟩ := newInmem_fields hb
    intro k v
    constructor
    · intro hv
      rw [put_eq, putInternal_err b ctx _ hfp hctx, hmv, if_pos]
      simp only [hv]
      decide
    · intro hv
      rw [put_eq, putInternal_err b ctx _ hfp hctx, hmv, if_neg]
      simp only [hv]
      decide
  · intro parallel logAllOps conf hconf
    have hex : ∃ b, NewInmem parallel logAllOps conf = .ok b ∧ b.maxValueSize = 0 := by
      rcases hconf with h | h
      · exact newInmem_absent parallel logAllOps conf h
      · exact newInmem_atoi parallel logAllOps conf (str "0") 0 h (by rfl)
    obtain ⟨b, hb, hmv⟩ := hex
    refine ⟨b, hb, ?_⟩
    obtain ⟨-, -, hfp, -⟩ := newInmem_fields hb
    intro e
    rw [put_eq, putInternal_err b ctx e hfp hctx, hmv, if_neg]
    intro h
    exact absurd h.1 (lt_irrefl _)
  · intro parallel logAllOps conf m mv hl ha
    obtain ⟨b, hb, hmv⟩ := newInmem_atoi parallel logAllOps conf m mv hl ha
    obtain ⟨-, -, hfp, -⟩ := newInmem_fields hb
    refine ⟨b, hb, hmv, ?_⟩
    intro e
    rw [← hmv]
    exact hiff b e hfp

theorem value_too_large_iff_witness :
    ((({ inmemOf [] with maxValueSize := 4 } : InmemBackend).Put ⟨none⟩
          { Key := str "k", Value := [1, 2, 3, 4, 5] }).1 = some Error.ValueTooLarge ↔
        0 < ({ inmemOf [] with maxValueSize := 4 } : InmemBackend).maxValueSize ∧
          ({ inmemOf [] with maxValueSize := 4 } : InmemBackend).maxValueSize
            < (([1, 2, 3, 4, 5] : Value).length : Int)) ∧
      (({ inmemOf [] with maxValueSize := 4 } : InmemBackend).Put ⟨none⟩
          { Key := str "k", Value := [1, 2, 3, 4, 5] }).1 = some Error.ValueTooLarge :=
  ⟨(value_too_large_iff { inmemOf [] with maxValueSize := 4 } ⟨none⟩
      { Key := str "k", Value := [1, 2, 3, 4, 5] } rfl rfl).1, by decide⟩

/-! ## The encoding guard -/

theorem indexFuncLoop_ne (f : Rune → Bool) (fuel i : Nat) (s : GoString) :
    indexFuncLoop f fuel i s ≠ -1 ↔ ∃ r ∈ runesLoop fuel s, f r = true := by
  induction fuel generalizing i s with
  | zero => simp [indexFuncLoop, runesLoop]
  | succ fuel ih =>
    cases s with
    | nil => simp [indexFuncLoop, runesLoop]
    | cons c rest =>
      simp only [indexFuncLoop, runesLoop]
      by_cases hf : f (DecodeRuneInString (c :: rest)).1 = true
      · rw [if_pos hf]
        constructor
        · intro _
          exact ⟨_, List.mem_cons_self _ _, hf⟩
        · intro _ h
          have : (0 : Int) ≤ (i : Int) := Int.natCast_nonneg i
          omega
      · rw [if_neg hf, ih]
        constructor
        · rintro ⟨r, hr, hfr⟩
          exact ⟨r, List.mem_cons_of_mem _ hr, hfr⟩
        · rintro ⟨r, hr, hfr⟩
          rcases List.mem_cons.mp hr with h | h
          · rw [h] at hfr
            exact absurd hfr hf
          · exact ⟨r, h, hfr⟩

theorem leadInfo_bounds (b : Byte) (sz lo hi : Nat) (h : leadInfo b = some (sz, lo, hi)) :
    0x80 ≤ lo := by
  unfold leadInfo at h
  split_ifs at h <;> simp only [Option.some.injEq, Prod.mk.injEq] at h <;>
    (obtain ⟨-, rfl, -⟩ := h; omega)

theorem stepOk_one (s0 : Byte) (rest : GoString) (h0 : 0x80 ≤ s0.val) (r : Rune) :
    StepOk (s0 :: rest) (r, 1) := by
  refine ⟨le_refl _, Or.inr ?_⟩
  intro c hc
  simp only [List.take_succ_cons, List.take_zero, List.mem_singleton] at hc
  rw [hc]; exact h0

theorem isCont_ge (b : Byte) (h : ¬((!isCont b) = true)) : 0x80 ≤ b.val := by
  simp only [isCont, Bool.not_eq_true', decide_eq_false_iff_not, not_not] at h
  exact h.1

theorem decode_step (s0 : Byte) (rest : GoString) :
    StepOk (s0 :: rest) (DecodeRuneInString (s0 :: rest)) := by
  by_cases h0 : s0.val < 0x80
  · have : DecodeRuneInString (s0 :: rest) = ((s0.val : Int), 1) := by
      unfold DecodeRuneInString
      simp [h0]
    rw [this]
    exact ⟨le_refl _, Or.inl ⟨s0, rest, rfl, h0, rfl⟩⟩
  · have h0' : 0x80 ≤ s0.val := by omega
    unfold DecodeRuneInString
    simp only [h0, if_false]
    cases hL : leadInfo s0 with
    | none => exact stepOk_one s0 rest h0' _
    | some info =>
      obtain ⟨sz, lo, hi⟩ := info
      have hlo := leadInfo_bounds s0 sz lo hi hL
      simp only
      by_cases hlen : (s0 :: rest).length < sz
      · rw [if_pos hlen]
        exact stepOk_one s0 rest h0' _
      · rw [if_neg hlen]
        cases rest with
        | nil => exact stepOk_one s0 _ h0' _
        | cons s1 rest1 =>
          simp only
          by_cases h1 : s1.val < lo ∨ hi < s1.val
          · rw [if_pos h1]
            exact stepOk_one s0 _ h0' _
          · rw [if_neg h1]
            have h1' : 0x80 ≤ s1.val := by omega
            by_cases h2 : sz ≤ 2
            · rw [if_pos h2]
              refine ⟨by simp, Or.inr ?_⟩
              intro c hc
              simp only [List.take_succ_cons, List.take_zero, List.mem_cons, List.mem_singleton,
                List.not_mem_nil, or_false] at hc
              rcases hc with hc | hc
              · rw [hc]; exact h0'
              · rw [hc]; exact h1'
            · rw [if_neg h2]
              cases rest1 with
              | nil => exact stepOk_one s0 _ h0' _
              | cons s2 rest2 =>
                simp only
                by_cases h3 : (!isCont s2) = true
                · rw [if_pos h3]
                  exact stepOk_one s0 _ h0' _
                · rw [if_neg h3]
                  have h3' := isCont_ge s2 h3
                  by_cases h4 : sz ≤ 3
                  · rw [if_pos h4]
                    refine ⟨by simp, Or.inr ?_⟩
                    intro c hc
                    simp only [List.take_succ_cons, List.take_zero, List.mem_cons,
                      List.mem_singleton, List.not_mem_nil, or_false] at hc
                    rcases hc with hc | hc | hc
                    · rw [hc]; exact h0'
                    · rw [hc]; exact h1'
                    · rw [hc]; exact h3'
                  · rw [if_neg h4]
                    cases rest2 with
                    | nil => exact stepOk_one s0 _ h0' _
                    | cons s3 rest3 =>
                      simp only
                      by_cases h5 : (!isCont s3) = true
                      · rw [if_pos h5]
                        exact stepOk_one s0 _ h0' _
                      · rw [if_neg h5]
                        have h5' := isCont_ge s3 h5
                        refine ⟨by simp, Or.inr ?_⟩
                        intro c hc
                        simp only [List.take_succ_cons, List.take_zero, List.mem_cons,
                          List.mem_singleton, List.not_mem_nil, or_false] at hc
                        rcases hc with hc | hc | hc | hc
                        · rw [hc]; exact h0'
                        · rw [hc]; exact h1'
                        · rw [hc]; exact h3'
                        · rw [hc]; exact h5'

/-- An ASCII byte of a string is one of its characters. -/
theorem ascii_mem_runesLoop (fuel : Nat) (s : GoString) (hfuel : s.length ≤ fuel) (c : Byte)
    (hc : c ∈ s) (hascii : c.val < 0x80) : (c.val : Int) ∈ runesLoop fuel s := by
  induction fuel generalizing s with
  | zero =>
    have : s = [] := List.length_eq_zero.mp (Nat.le_zero.mp hfuel)
    rw [this] at hc
    exact absurd hc (List.not_mem_nil _)
  | succ fuel ih =>
    cases s with
    | nil => exact absurd hc (List.not_mem_nil _)
    | cons s0 rest =>
      simp only [runesLoop]
      obtain ⟨hpos, hstep⟩ := decode_step s0 rest
      rw [← List.take_append_drop (DecodeRuneInString (s0 :: rest)).2 (s0 :: rest),
        List.mem_append] at hc
      rcases hc with hc | hc
      · rcases hstep with ⟨c', rest', hs, hlt, hd⟩ | hall
        · rw [hd] at hc ⊢
          simp only [List.take_succ_cons, List.take_zero, List.mem_singleton] at hc
          simp only [List.cons.injEq] at hs
          rw [hc, hs.1]
          exact List.mem_cons_self _ _
        · have := hall c hc
          omega
      · apply List.mem_cons_of_mem
        apply ih _ _ hc
        rw [List.length_drop]
        simp only [List.length_cons] at hfuel ⊢
        omega

theorem ascii_mem_runes (s : GoString) (c : Byte) (hc : c ∈ s) (hascii : c.val < 0x80) :
    (c.val : Int) ∈ Runes s :=
  ascii_mem_runesLoop s.length s (le_refl _) c hc hascii

theorem containsNonPrintableChars_iff {σ : Type} (IsPrint : Rune → Bool)
    (e : StorageEncoding σ) (key : GoString) :
    e.containsNonPrintableChars IsPrint key = true ↔ ∃ r ∈ Runes key, IsPrint r = false := by
  unfold StorageEncoding.containsNonPrintableChars IndexFunc Runes
  have h := indexFuncLoop_ne (fun c => !IsPrint c) key.length 0 key
  simp only [ne_eq, Bool.not_eq_true'] at h
  simp only [ne_eq, decide_not, Bool.not_eq_true', decide_eq_false_iff_not]
  exact h

/-- C5: for a key that is not valid UTF-8, `StorageEncoding.Put` and
`StorageEncoding.Delete` return `ErrNonUTF8` and leave the wrapped backend's
state as it was, whatever the wrapped backend is; a wrapped backend that counts
the `Put` and `Delete` calls it receives counts none. -/
theorem guard_rejects_non_utf8 {σ : Type} (IsPrint : Rune → Bool) (b : Backend σ) (s : σ)
    (ctx : Context) (key : GoString) (v : Value) (hkey : ValidString key = false) :
    StorageEncoding.Put IsPrint { Backend := b } s ctx { Key := key, Value := v }
        = (some Error.ErrNonUTF8, s) ∧
      StorageEncoding.Delete IsPrint { Backend := b } s ctx key = (some Error.ErrNonUTF8, s) ∧
      (NewStorageEncoding IsPrint b).Put s ctx { Key := key, Value := v }
        = (some Error.ErrNonUTF8, s) ∧
      (NewStorageEncoding IsPrint b).Delete s ctx key = (some Error.ErrNonUTF8, s) ∧
      (∀ n : Nat,
        (StorageEncoding.Put IsPrint { Backend := countingBackend } n ctx
            { Key := key, Value := v }).2 = n ∧
        (StorageEncoding.Delete IsPrint { Backend := countingBackend } n ctx key).2 = n) := by
  have hput : ∀ {τ : Type} (c : Backend τ) (t : τ),
      StorageEncoding.Put IsPrint { Backend := c } t ctx { Key := key, Value := v }
        = (some Error.ErrNonUTF8, t) := by
    intro τ c t
    unfold StorageEncoding.Put
    simp [hkey]
  have hdel : ∀ {τ : Type} (c : Backend τ) (t : τ),
      StorageEncoding.Delete IsPrint { Backend := c } t ctx key
        = (some Error.ErrNonUTF8, t) := by
    intro τ c t
    unfold StorageEncoding.Delete
    simp [hkey]
  refine ⟨hput b s, hdel b s, hput b s, hdel b s, ?_⟩
  intro n
  rw [hput, hdel]
  exact ⟨rfl, rfl⟩

theorem guard_rejects_non_utf8_witness :
    StorageEncoding.Put isPrintASCII { Backend := InmemBackend.asBackend } (inmemOf [])
        ⟨none⟩ { Key := [0x61, 0xFF], Value := [1] } = (some Error.ErrNonUTF8, inmemOf []) ∧
      StorageEncoding.Delete isPrintASCII { Backend := InmemBackend.asBackend } (inmemOf [])
        ⟨none⟩ [0x61, 0xFF] = (some Error.ErrNonUTF8, inmemOf []) ∧
      (NewStorageEncoding isPrintASCII InmemBackend.asBackend).Put (inmemOf []) ⟨none⟩
        { Key := [0x61, 0xFF], Value := [1] } = (some Error.ErrNonUTF8, inmemOf []) ∧
      (NewStorageEncoding isPrintASCII InmemBackend.asBackend).Delete (inmemOf []) ⟨none⟩
        [0x61, 0xFF] = (some Error.ErrNonUTF8, inmemOf []) ∧
      (∀ n : Nat,
        (StorageEncoding.Put isPrintASCII { Backend := countingBackend } n ⟨none⟩
            { Key := [0x61, 0xFF], Value := [1] }).2 = n ∧
        (StorageEncoding.Delete isPrintASCII { Backend := countingBackend } n ⟨none⟩
            [0x61, 0xFF]).2 = n) :=
  guard_rejects_non_utf8 isPrintASCII InmemBackend.asBackend (inmemOf []) ⟨none⟩
    [0x61, 0xFF] [1] (by decide)

/-- C6: for a key that is valid UTF-8 and has at least one character that
`unicode.IsPrint` rejects, `StorageEncoding.Put` and `StorageEncoding.Delete`
return `ErrNonPrintable` and leave the wrapped backend's state as it was,
whatever the wrapped backend is; a wrapped backend that counts the `Put` and
`Delete` calls it receives counts none. In particular this holds for every
valid key with a byte below `0x80` that `unicode.IsPrint` rejects, such as a
NUL (`0x00`) or a tab (`0x09`). -/
theorem guard_rejects_non_printable {σ : Type} (IsPrint : Rune → Bool) (b : Backend σ) (s : σ)
    (ctx : Context) (key : GoString) (v : Value) (hkey : ValidString key = true)
    (hchar : ∃ r ∈ Runes key, IsPrint r = false) :
    StorageEncoding.Put IsPrint { Backend := b } s ctx { Key := key, Value := v }
        = (some Error.ErrNonPrintable, s) ∧
      StorageEncoding.Delete IsPrint { Backend := b } s ctx key
        = (some Error.ErrNonPrintable, s) ∧
      (NewStorageEncoding IsPrint b).Put s ctx { Key := key, Value := v }
        = (some Error.ErrNonPrintable, s) ∧
      (NewStorageEncoding IsPrint b).Delete s ctx key = (some Error.ErrNonPrintable, s) ∧
      (∀ n : Nat,
        (StorageEncoding.Put IsPrint { Backend := countingBackend } n ctx
            { Key := key, Value := v }).2 = n ∧
        (StorageEncoding.Delete IsPrint { Backend := countingBackend } n ctx key).2 = n) ∧
      (∀ (c : Byte) (key' : GoString) (v' : Value), c.val < 0x80 →
        IsPrint (c.val : Int) = false → c ∈ key' → ValidString key' = true →
        StorageEncoding.Put IsPrint { Backend := b } s ctx { Key := key', Value := v' }
            = (some Error.ErrNonPrintable, s) ∧
          StorageEncoding.Delete IsPrint { Backend := b } s ctx key'
            = (some Error.ErrNonPrintable, s)) := by
  have hput : ∀ {τ : Type} (c : Backend τ) (t : τ) (k : GoString) (w : Value),
      ValidString k = true → (∃ r ∈ Runes k, IsPrint r = false) →
      StorageEncoding.Put IsPrint { Backend := c } t ctx { Key := k, Value := w }
        = (some Error.ErrNonPrintable, t) := by
    intro τ c t k w hk hr
    unfold StorageEncoding.Put
    simp [hk, (containsNonPrintableChars_iff IsPrint { Backend := c } k).mpr hr]
  have hdel : ∀ {τ : Type} (c : Backend τ) (t : τ) (k : GoString),
      ValidString k = true → (∃ r ∈ Runes k, IsPrint r = false) →
      StorageEncoding.Delete IsPrint { Backend := c } t ctx k
        = (some Error.ErrNonPrintable, t) := by
    intro τ c t k hk hr
    unfold StorageEncoding.Delete
    simp [hk, (containsNonPrintableChars_iff IsPrint { Backend := c } k).mpr hr]
  refine ⟨hput b s key v hkey hchar, hdel b s key hkey hchar, hput b s key v hkey hchar,
    hdel b s key hkey hchar, ?_, ?_⟩
  · intro n
    rw [hput _ _ key v hkey hchar, hdel _ _ key hkey hchar]
    exact ⟨rfl, rfl⟩
  · intro c key' v' hascii hnp hmem hvalid
    have hr : ∃ r ∈ Runes key', IsPrint r = false :=
      ⟨(c.val : Int), ascii_mem_runes key' c hmem hascii, hnp⟩
    exact ⟨hput b s key' v' hvalid hr, hdel b s key' hvalid hr⟩

theorem guard_rejects_non_printable_witness :
    StorageEncoding.Put isPrintASCII { Backend := InmemBackend.asBackend } (inmemOf [])
        ⟨none⟩ { Key := [0x61, 0x09], Value := [1] }
        = (some Error.ErrNonPrintable, inmemOf []) ∧
      StorageEncoding.Delete isPrintASCII { Backend := InmemBackend.asBackend } (inmemOf [])
        ⟨none⟩ [0x61, 0x09] = (some Error.ErrNonPrintable, inmemOf []) ∧
      (NewStorageEncoding isPrintASCII InmemBackend.asBackend).Put (inmemOf []) ⟨none⟩
        { Key := [0x61, 0x09], Value := [1] } = (some Error.ErrNonPrintable, inmemOf []) ∧
      (NewStorageEncoding isPrintASCII InmemBackend.asBackend).Delete (inmemOf []) ⟨none⟩
        [0x61, 0x09] = (some Error.ErrNonPrintable, inmemOf []) ∧
      (∀ n : Nat,
        (StorageEncoding.Put isPrintASCII { Backend := countingBackend } n ⟨none⟩
            { Key := [0x61, 0x09], Value := [1] }).2 = n ∧
        (StorageEncoding.Delete isPrintASCII { Backend := countingBackend } n ⟨none⟩
            [0x61, 0x09]).2 = n) ∧
      (∀ (c : Byte) (key' : GoString) (v' : Value), c.val < 0x80 →
        isPrintASCII (c.val : Int) = false → c ∈ key' → ValidString key' = true →
        StorageEncoding.Put isPrintASCII { Backend := InmemBackend.asBackend } (inmemOf [])
            ⟨none⟩ { Key := key', Value := v' } = (some Error.ErrNonPrintable, inmemOf []) ∧
          StorageEncoding.Delete isPrintASCII { Backend := InmemBackend.asBackend }
            (inmemOf []) ⟨none⟩ key' = (some Error.ErrNonPrintable, inmemOf [])) :=
  guard_rejects_non_printable isPrintASCII InmemBackend.asBackend (inmemOf []) ⟨none⟩
    [0x61, 0x09] [1] (by decide) ⟨9, by decide, by decide⟩

/-! ## The walk of `ListPaginatedInternal` -/

theorem walkFn_stop (pre after : GoString) (limit : Int) (s : GoString) (v : Value)
    (w : InmemBackend.WalkVars) (h : limit > 0 ∧ (w.out.length : Int) ≥ limit) :
    InmemBackend.walkFn pre after limit s v w = (true, w) := by
  unfold InmemBackend.walkFn
  rw [if_pos h]

theorem walkFn_go (pre after : GoString) (limit : Int) (s : GoString) (v : Value)
    (w : InmemBackend.WalkVars) (h : ¬(limit > 0 ∧ (w.out.length : Int) ≥ limit)) :
    InmemBackend.walkFn pre after limit s v w =
      (false,
        if after ≠ [] ∧ segment pre s ≤ after then w
        else if isSubtree pre s then
          if segment pre s ∈ w.seen then w
          else { out := w.out ++ [segment pre s], seen := segment pre s :: w.seen }
        else { w with out := w.out ++ [segment pre s] }) := by
  unfold InmemBackend.walkFn segment isSubtree
  rw [if_neg h]
  simp only
  by_cases hsep : IndexByte (TrimPrefix s pre) slash = -1
  · simp only [hsep, if_true, ne_eq, not_true_eq_false, decide_False, Bool.false_eq_true,
      if_false]
    split_ifs <;> rfl
  · simp only [hsep, if_false, ne_eq, not_false_eq_true, decide_True, if_true]
    split_ifs <;> rfl

theorem appended_cons (pre after : GoString) (e : GoString × Value)
    (rest : List (GoString × Value)) (seen : StringSlice) :
    appended pre after (e :: rest) seen =
      if after ≠ [] ∧ segment pre e.1 ≤ after then appended pre after rest seen
      else if isSubtree pre e.1 then
        if segment pre e.1 ∈ seen then appended pre after rest seen
        else segment pre e.1 :: appended pre after rest (segment pre e.1 :: seen)
      else segment pre e.1 :: appended pre after rest seen := by
  rw [appended]

theorem walk_out (pre after : GoString) (limit : Int) (ks : List (GoString × Value))
    (w : InmemBackend.WalkVars) :
    (walk (InmemBackend.walkFn pre after limit) ks w).out =
      w.out ++
        (if limit > 0 then (appended pre after ks w.seen).take (limit.toNat - w.out.length)
         else appended pre after ks w.seen) := by
  induction ks generalizing w with
  | nil => simp [walk, appended]
  | cons e rest ih =>
    unfold walk
    by_cases h : limit > 0 ∧ (w.out.length : Int) ≥ limit
    · rw [walkFn_stop pre after limit e.1 e.2 w h]
      simp only [if_true]
      have h0 : limit.toNat - w.out.length = 0 := by omega
      rw [if_pos h.1, h0]
      simp
    · rw [walkFn_go pre after limit e.1 e.2 w h]
      simp only [Bool.false_eq_true, if_false]
      rw [ih, appended_cons]
      by_cases hc : after ≠ [] ∧ segment pre e.1 ≤ after
      · simp only [if_pos hc]
      · simp only [if_neg hc]
        by_cases hd : isSubtree pre e.1 = true
        · simp only [if_pos hd]
          by_cases hs : segment pre e.1 ∈ w.seen
          · simp only [if_pos hs]
          · simp only [if_neg hs, List.append_assoc, List.length_append, List.length_singleton]
            by_cases hl : limit > 0
            · have h1 : limit.toNat - w.out.length
                  = (limit.toNat - (w.out.length + 1)) + 1 := by omega
              simp only [if_pos hl]
              rw [h1, List.take_succ_cons]
              simp
            · simp [if_neg hl]
        · simp only [if_neg hd, List.append_assoc, List.length_append, List.length_singleton]
          by_cases hl : limit > 0
          · have h1 : limit.toNat - w.out.length
                = (limit.toNat - (w.out.length + 1)) + 1 := by omega
            simp only [if_pos hl]
            rw [h1, List.take_succ_cons]
            simp
          · simp [if_neg hl]

theorem skip_iff (after c : GoString) :
    (after ≠ [] ∧ c ≤ after) ↔ ¬(after = [] ∨ after < c) := by
  rw [not_or, not_lt]

theorem appended_filter (pre after : GoString) (ks : List (GoString × Value))
    (seen1 seen2 : StringSlice)
    (hseen : ∀ c : GoString, (after = [] ∨ after < c) → (c ∈ seen1 ↔ c ∈ seen2)) :
    appended pre after ks seen1 =
      (appended pre [] ks seen2).filter (fun x => after = [] ∨ after < x) := by
  induction ks generalizing seen1 seen2 with
  | nil => simp [appended]
  | cons e rest ih =>
    rw [appended_cons, appended_cons]
    have hnil : ¬(([] : GoString) ≠ [] ∧ segment pre e.1 ≤ []) := fun h => h.1 rfl
    rw [if_neg hnil]
    by_cases hc : after ≠ [] ∧ segment pre e.1 ≤ after
    · have hp : ¬(after = [] ∨ after < segment pre e.1) := (skip_iff _ _).mp hc
      rw [if_pos hc]
      by_cases hd : isSubtree pre e.1 = true
      · rw [if_pos hd]
        by_cases hs : segment pre e.1 ∈ seen2
        · rw [if_pos hs]
          exact ih seen1 seen2 hseen
        · rw [if_neg hs, List.filter_cons_of_neg (by simpa using hp)]
          apply ih
          intro c hcp
          rw [hseen c hcp, List.mem_cons]
          constructor
          · intro h; exact Or.inr h
          · rintro (h | h)
            · rw [h] at hcp
              exact absurd hcp hp
            · exact h
      · rw [if_neg hd, List.filter_cons_of_neg (by simpa using hp)]
        exact ih seen1 seen2 hseen
    · have hp : after = [] ∨ after < segment pre e.1 := by
        by_contra h
        exact hc ((skip_iff _ _).mpr h)
      rw [if_neg hc]
      by_cases hd : isSubtree pre e.1 = true
      · rw [if_pos hd, if_pos hd]
        by_cases hs : segment pre e.1 ∈ seen2
        · rw [if_pos hs, if_pos ((hseen _ hp).mpr hs)]
          exact ih seen1 seen2 hseen
        · rw [if_neg hs, if_neg (fun h => hs ((hseen _ hp).mp h)),
            List.filter_cons_of_pos (by simpa using hp)]
          congr 1
          apply ih
          intro c hcp
          rw [List.mem_cons, List.mem_cons, hseen c hcp]
      · rw [if_neg hd, if_neg hd, List.filter_cons_of_pos (by simpa using hp)]
        congr 1
        exact ih seen1 seen2 hseen

/-- The keys `WalkPrefix` visits: the stored pairs whose key starts with the
prefix. -/
theorem walkPrefix_eq {σ : Type} (t : Tree) (pre : GoString)
    (fn : GoString → Value → σ → Bool × σ) (st : σ) :
    t.WalkPrefix pre fn st = walk fn (t.entries.filter (fun e => HasPrefix e.1 pre)) st := rfl

theorem listPaginatedInternal_ok (i : InmemBackend) (ctx : Context) (pre after : GoString)
    (limit : Int) (hlist : i.failList = 0) (hctx : ctx.Err = none) :
    i.ListPaginatedInternal ctx pre after limit =
      (pageFrom after limit
        (appended pre [] (i.root.entries.filter (fun e => HasPrefix e.1 pre)) []), none) := by
  unfold InmemBackend.ListPaginatedInternal
  simp only [hlist, hctx, ne_eq, not_true_eq_false, if_false]
  rw [walkPrefix_eq, walk_out]
  simp only [List.nil_append, List.length_nil, Nat.sub_zero]
  rw [appended_filter pre after _ [] [] (fun _ _ => Iff.rfl)]
  rfl

theorem pageFrom_nil_neg (listing : StringSlice) : pageFrom [] (-1) listing = listing := by
  unfold pageFrom
  simp

theorem listInternal_ok (i : InmemBackend) (ctx : Context) (pre : GoString)
    (hlist : i.failList = 0) (hctx : ctx.Err = none) :
    i.ListPaginatedInternal ctx pre [] (-1) =
      (appended pre [] (i.root.entries.filter (fun e => HasPrefix e.1 pre)) [], none) := by
  rw [listPaginatedInternal_ok i ctx pre [] (-1) hlist hctx, pageFrom_nil_neg]

/-! ## Segments -/

theorem indexByte_ge (r : GoString) (c : Byte) : -1 ≤ IndexByte r c := by
  induction r with
  | nil => simp [IndexByte]
  | cons b r ih =>
    unfold IndexByte
    by_cases hb : b = c
    · simp [hb]
    · simp only [hb, if_false]
      split_ifs <;> omega

theorem indexByte_eq_neg_one_iff (r : GoString) (c : Byte) : IndexByte r c = -1 ↔ c ∉ r := by
  induction r with
  | nil => simp [IndexByte]
  | cons b r ih =>
    unfold IndexByte
    have hge := indexByte_ge r c
    by_cases hb : b = c
    · simp [hb]
    · simp only [hb, if_false, List.mem_cons, not_or]
      by_cases hr : IndexByte r c = -1
      · simp only [hr, if_true, true_iff]
        exact ⟨fun h => hb h.symm, ih.mp hr⟩
      · simp only [hr, if_false]
        constructor
        · intro h; omega
        · intro h; exact absurd (ih.mpr h.2) hr

theorem cutAt_eq (r : GoString) :
    (if IndexByte r slash = -1 then r else r.take (IndexByte r slash + 1).toNat) = cut r := by
  induction r with
  | nil => simp [IndexByte, cut]
  | cons b r ih =>
    have hge := indexByte_ge r slash
    unfold IndexByte cut
    by_cases hb : b = slash
    · simp [hb]
    · simp only [hb, if_false]
      by_cases hr : IndexByte r slash = -1
      · simp only [hr, if_true] at ih ⊢
        rw [← ih]
      · simp only [hr, if_false] at ih ⊢
        have hne : ¬(IndexByte r slash + 1 = -1) := by omega
        rw [if_neg hne, ← ih]
        have h2 : (IndexByte r slash + 1 + 1).toNat = (IndexByte r slash + 1).toNat + 1 := by
          omega
        rw [h2, List.take_succ_cons]

theorem takeWhile_eq_cut (r : GoString) :
    (if slash ∈ r then r.takeWhile (fun c => c ≠ slash) ++ [slash] else r) = cut r := by
  induction r with
  | nil => simp [cut]
  | cons b r ih =>
    unfold cut
    by_cases hb : b = slash
    · simp [hb]
    · have hb' : ¬(slash = b) := fun h => hb h.symm
      simp only [List.mem_cons, hb', false_or, if_false, hb]
      rw [List.takeWhile_cons_of_pos (by simpa using hb)]
      by_cases hr : slash ∈ r
      · simp only [hr, if_true] at ih ⊢
        rw [← ih]
        rfl
      · simp only [hr, if_false] at ih ⊢
        rw [← ih]

theorem slash_mem_cut (r : GoString) : slash ∈ cut r ↔ slash ∈ r := by
  induction r with
  | nil => simp [cut]
  | cons b r ih =>
    unfold cut
    by_cases hb : b = slash
    · simp [hb]
    · have hb' : ¬(slash = b) := fun h => hb h.symm
      simp [hb, hb', ih]

theorem slash_not_mem_dropLast_cut (r : GoString) : slash ∉ (cut r).dropLast := by
  induction r with
  | nil => simp [cut]
  | cons b r ih =>
    unfold cut
    by_cases hb : b = slash
    · simp [hb]
    · simp only [hb, if_false]
      cases hcr : cut r with
      | nil => simp
      | cons d ds =>
        rw [hcr] at ih
        rw [List.dropLast_cons₂, List.mem_cons, not_or]
        exact ⟨fun h => hb h.symm, ih⟩

theorem hasPrefix_iff (s pre : GoString) : HasPrefix s pre = true ↔ pre <+: s := by
  unfold HasPrefix
  exact List.isPrefixOf_iff_prefix

theorem trimPrefix_eq_drop (s pre : GoString) (h : HasPrefix s pre = true) :
    TrimPrefix s pre = s.drop pre.length := by
  unfold TrimPrefix
  rw [if_pos h]

theorem segment_eq_cut (pre s : GoString) : segment pre s = cut (TrimPrefix s pre) := by
  unfold segment
  exact cutAt_eq _

theorem child_eq_cut (p k : GoString) : child p k = cut (k.drop p.length) := by
  unfold child
  exact takeWhile_eq_cut _

theorem segment_eq_child (pre s : GoString) (h : HasPrefix s pre = true) :
    segment pre s = child pre s := by
  rw [segment_eq_cut, child_eq_cut, trimPrefix_eq_drop s pre h]

theorem isSubtree_iff (pre s : GoString) :
    isSubtree pre s = true ↔ slash ∈ TrimPrefix s pre := by
  unfold isSubtree
  simp only [ne_eq, decide_not, Bool.not_eq_true', decide_eq_false_iff_not]
  rw [indexByte_eq_neg_one_iff]
  exact not_not

/-! ## What a listing contains -/

theorem appended_nil_cons (pre : GoString) (e : GoString × Value)
    (rest : List (GoString × Value)) (seen : StringSlice) :
    appended pre [] (e :: rest) seen =
      if isSubtree pre e.1 then
        if segment pre e.1 ∈ seen then appended pre [] rest seen
        else segment pre e.1 :: appended pre [] rest (segment pre e.1 :: seen)
      else segment pre e.1 :: appended pre [] rest seen := by
  rw [appended_cons, if_neg (fun h => h.1 rfl)]

/-- Every appended element is the segment of a visited key, and a folder
marker is only appended when it has not been seen. -/
theorem mem_appended (pre : GoString) (ks : List (GoString × Value)) (seen : StringSlice)
    (x : GoString) (hx : x ∈ appended pre [] ks seen) :
    ∃ e ∈ ks, segment pre e.1 = x ∧ (isSubtree pre e.1 = true → x ∉ seen) := by
  induction ks generalizing seen with
  | nil => simp [appended] at hx
  | cons e rest ih =>
    rw [appended_nil_cons] at hx
    by_cases hd : isSubtree pre e.1 = true
    · rw [if_pos hd] at hx
      by_cases hs : segment pre e.1 ∈ seen
      · rw [if_pos hs] at hx
        obtain ⟨e', he', hseg, hns⟩ := ih seen hx
        exact ⟨e', List.mem_cons_of_mem _ he', hseg, hns⟩
      · rw [if_neg hs] at hx
        rcases List.mem_cons.mp hx with h | h
        · refine ⟨e, List.mem_cons_self _ _, h.symm, ?_⟩
          intro _
          rw [h]
          exact hs
        · obtain ⟨e', he', hseg, hns⟩ := ih _ h
          refine ⟨e', List.mem_cons_of_mem _ he', hseg, ?_⟩
          intro hd'
          exact fun hmem => hns hd' (List.mem_cons_of_mem _ hmem)
    · rw [if_neg hd] at hx
      rcases List.mem_cons.mp hx with h | h
      · exact ⟨e, List.mem_cons_self _ _, h.symm, fun hd' => absurd hd' hd⟩
      · obtain ⟨e', he', hseg, hns⟩ := ih seen h
        exact ⟨e', List.mem_cons_of_mem _ he', hseg, hns⟩

/-- The segment of every visited key is appended, unless it is a folder marker
that has been seen. -/
theorem segment_mem_appended (pre : GoString) (ks : List (GoString × Value))
    (seen : StringSlice) (e : GoString × Value) (he : e ∈ ks) :
    segment pre e.1 ∈ appended pre [] ks seen ∨ segment pre e.1 ∈ seen := by
  induction ks generalizing seen with
  | nil => simp at he
  | cons e' rest ih =>
    rw [appended_nil_cons]
    rcases List.mem_cons.mp he with h | h
    · subst h
      by_cases hd : isSubtree pre e.1 = true
      · rw [if_pos hd]
        by_cases hs : segment pre e.1 ∈ seen
        · exact Or.inr hs
        · rw [if_neg hs]
          exact Or.inl (List.mem_cons_self _ _)
      · rw [if_neg hd]
        exact Or.inl (List.mem_cons_self _ _)
    · by_cases hd : isSubtree pre e'.1 = true
      · rw [if_pos hd]
        by_cases hs : segment pre e'.1 ∈ seen
        · rw [if_pos hs]
          exact ih seen h
        · rw [if_neg hs]
          rcases ih (segment pre e'.1 :: seen) h with h1 | h1
          · exact Or.inl (List.mem_cons_of_mem _ h1)
          · rcases List.mem_cons.mp h1 with h2 | h2
            · rw [h2]
              exact Or.inl (List.mem_cons_self _ _)
            · exact Or.inr h2
      · rw [if_neg hd]
        rcases ih seen h with h1 | h1
        · exact Or.inl (List.mem_cons_of_mem _ h1)
        · exact Or.inr h1

theorem mem_appended_iff (pre : GoString) (ks : List (GoString × Value)) (x : GoString) :
    x ∈ appended pre [] ks [] ↔ ∃ e ∈ ks, segment pre e.1 = x := by
  constructor
  · intro hx
    obtain ⟨e, he, hseg, -⟩ := mem_appended pre ks [] x hx
    exact ⟨e, he, hseg⟩
  · rintro ⟨e, he, hseg⟩
    rcases segment_mem_appended pre ks [] e he with h | h
    · rw [← hseg]; exact h
    · simp at h

theorem mem_listing_iff (t : Tree) (pre x : GoString) :
    x ∈ appended pre [] (t.entries.filter (fun e => HasPrefix e.1 pre)) [] ↔
      ∃ k ∈ t.entries.map Prod.fst, pre <+: k ∧ child pre k = x := by
  rw [mem_appended_iff]
  constructor
  · rintro ⟨e, he, hseg⟩
    obtain ⟨hmem, hpre⟩ := List.mem_filter.mp he
    refine ⟨e.1, List.mem_map.mpr ⟨e, hmem, rfl⟩, (hasPrefix_iff _ _).mp hpre, ?_⟩
    rw [← segment_eq_child pre e.1 hpre]
    exact hseg
  · rintro ⟨k, hk, hpre, hchild⟩
    obtain ⟨e, hmem, hfst⟩ := List.mem_map.mp hk
    have hp : HasPrefix e.1 pre = true := by
      rw [hfst]
      exact (hasPrefix_iff _ _).mpr hpre
    refine ⟨e, List.mem_filter.mpr ⟨hmem, hp⟩, ?_⟩
    rw [segment_eq_child pre e.1 hp, hfst]
    exact hchild

/-- C8: with the list flag off and a live context, `List(p)` returns no error
and a string is an element of the result if and only if it is the child segment
of some stored key that starts with `p`; hence no element has a `'/'` anywhere
but in its last position. With the keys `a/b`, `a/c` and `d` stored, `List("")`
is `a/`, `d` and `List("a/")` is `b`, `c`. -/
theorem list_eq_children (i : InmemBackend) (ctx : Context) (p : GoString)
    (hlist : i.failList = 0) (hctx : ctx.Err = none) :
    (i.List ctx p).1.2 = none ∧
      (∀ x : GoString, x ∈ (i.List ctx p).1.1 ↔ ∃ k ∈ i.keys, p <+: k ∧ child p k = x) ∧
      (∀ x ∈ (i.List ctx p).1.1, slash ∉ x.dropLast) ∧
      ((inmemOf [(str "a/b", [1]), (str "a/c", [2]), (str "d", [3])]).List ⟨none⟩ (str "")).1
        = ([str "a/", str "d"], none) ∧
      ((inmemOf [(str "a/b", [1]), (str "a/c", [2]), (str "d", [3])]).List ⟨none⟩ (str "a/")).1
        = ([str "b", str "c"], none) := by
  rw [list_eq]
  simp only
  rw [listInternal_ok i ctx p hlist hctx]
  refine ⟨rfl, ?_, ?_, by decide, by decide⟩
  · intro x
    exact mem_listing_iff i.root p x
  · intro x hx
    obtain ⟨k, -, -, hchild⟩ := (mem_listing_iff i.root p x).mp hx
    rw [← hchild, child_eq_cut]
    exact slash_not_mem_dropLast_cut _

theorem list_eq_children_witness :
    ((inmemOf [(str "x/y/z", [1]), (str "x/w", [2])]).List ⟨none⟩ (str "x/")).1.2 = none ∧
      (∀ x : GoString,
        x ∈ ((inmemOf [(str "x/y/z", [1]), (str "x/w", [2])]).List ⟨none⟩ (str "x/")).1.1 ↔
          ∃ k ∈ (inmemOf [(str "x/y/z", [1]), (str "x/w", [2])]).keys,
            str "x/" <+: k ∧ child (str "x/") k = x) ∧
      ((inmemOf [(str "x/y/z", [1]), (str "x/w", [2])]).List ⟨none⟩ (str "x/")).1.1
        = [str "w", str "y/"] :=
  ⟨(list_eq_children (inmemOf [(str "x/y/z", [1]), (str "x/w", [2])]) ⟨none⟩ (str "x/")
      rfl rfl).1,
    (list_eq_children (inmemOf [(str "x/y/z", [1]), (str "x/w", [2])]) ⟨none⟩ (str "x/")
      rfl rfl).2.1,
    by decide⟩

/-! ## Pages -/

theorem pageFrom_eq_pageOf (after : GoString) (limit : Int) (listing : StringSlice)
    (h : after ≠ [] ∨ [] ∉ listing) : pageFrom after limit listing = pageOf after limit listing := by
  have hf : listing.filter (fun x => after = [] ∨ after < x)
      = listing.filter (fun x => after < x) := by
    apply List.filter_congr
    intro x hx
    rcases h with h | h
    · simp [h]
    · have hxne : x ≠ [] := fun hx0 => h (hx0 ▸ hx)
      by_cases ha : after = []
      · subst ha
        cases x with
        | nil => exact absurd rfl hxne
        | cons c cs => simp [List.nil_lt_cons]
      · simp [ha]
  unfold pageFrom pageOf
  simp only [hf]

/-- C10, as stated, fails: with the keys `a` and `ab` stored, `List("a")` is
`""`, `b`, and `ListPage("a", "", 2)` returns both elements, although `""` is
not strictly greater than the cursor `""`. -/
theorem listPage_ne_pageOf :
    ¬(∀ (i : InmemBackend) (ctx : Context) (p after : GoString) (limit : Int),
        i.failList = 0 → ctx.Err = none →
        (i.ListPage ctx p after limit).1.1 = pageOf after limit (i.List ctx p).1.1) := by
  intro h
  have h1 := h (inmemOf [(str "a", [1]), (str "ab", [2])]) ⟨none⟩ (str "a") [] 2 rfl rfl
  revert h1
  decide

/-- C10, amended: with the list flag off and a live context,
`ListPage(p, after, limit)` returns no error and the elements of `List(p)`
that are strictly greater than `after` when `after` is not empty, and all the
elements of `List(p)` when `after` is empty, cut to the first `limit` of them
when `limit > 0` and not cut when `limit <= 0`. This is the filtered,
truncated `List(p)` of the claim whenever `after` is not empty or `List(p)`
has no empty element. With the keys `a`, `b`, `c`, `d` stored,
`ListPage("", "", 2)` is `a`, `b` and `ListPage("", "b", 2)` is `c`, `d`. -/
theorem listPage_eq_pageFrom (i : InmemBackend) (ctx : Context) (p after : GoString)
    (limit : Int) (hlist : i.failList = 0) (hctx : ctx.Err = none) :
    (i.ListPage ctx p after limit).1 = (pageFrom after limit (i.List ctx p).1.1, none) ∧
      ((after ≠ [] ∨ [] ∉ (i.List ctx p).1.1) →
        (i.ListPage ctx p after limit).1.1 = pageOf after limit (i.List ctx p).1.1) ∧
      ((inmemOf [(str "d", [4]), (str "b", [2]), (str "a", [1]), (str "c", [3])]).ListPage
          ⟨none⟩ (str "") (str "") 2).1 = ([str "a", str "b"], none) ∧
      ((inmemOf [(str "d", [4]), (str "b", [2]), (str "a", [1]), (str "c", [3])]).ListPage
          ⟨none⟩ (str "") (str "b") 2).1 = ([str "c", str "d"], none) := by
  have hpage : (i.ListPage ctx p after limit).1
      = (pageFrom after limit (i.List ctx p).1.1, none) := by
    rw [listPage_eq, list_eq]
    simp only
    rw [listInternal_ok i ctx p hlist hctx, listPaginatedInternal_ok i ctx p after limit hlist hctx]
  refine ⟨hpage, ?_, by decide, by decide⟩
  intro h
  rw [hpage]
  exact pageFrom_eq_pageOf after limit _ h

theorem listPage_eq_pageFrom_witness :
    ((inmemOf [(str "a", [1]), (str "ab", [2]), (str "ac", [3])]).ListPage ⟨none⟩
        (str "a") (str "") 2).1
      = (pageFrom (str "") 2
          ((inmemOf [(str "a", [1]), (str "ab", [2]), (str "ac", [3])]).List ⟨none⟩
            (str "a")).1.1, none) ∧
      ((inmemOf [(str "a", [1]), (str "ab", [2]), (str "ac", [3])]).ListPage ⟨none⟩
        (str "a") (str "") 2).1 = ([str "", str "b"], none) :=
  ⟨(listPage_eq_pageFrom (inmemOf [(str "a", [1]), (str "ab", [2]), (str "ac", [3])]) ⟨none⟩
      (str "a") (str "") 2 rfl rfl).1, by decide⟩

/-! ## Order -/

theorem cons_lt_cons_iff (a b : Byte) (as bs : GoString) :
    (a :: as) < (b :: bs) ↔ a < b ∨ (a = b ∧ as < bs) := by
  constructor
  · intro h
    have h' : List.Lex (· < ·) (a :: as) (b :: bs) := h
    cases h' with
    | cons h1 => exact Or.inr ⟨rfl, h1⟩
    | rel h1 => exact Or.inl h1
  · rintro (h | ⟨rfl, h⟩)
    · exact List.Lex.rel h
    · exact List.Lex.cons h

theorem not_lt_nil (as : GoString) : ¬as < [] := by
  intro h
  have h' : List.Lex (· < ·) as [] := h
  cases h'

theorem lt_of_append_lt_append (pre a b : GoString) (h : pre ++ a < pre ++ b) : a < b := by
  induction pre with
  | nil => exact h
  | cons c pre ih =>
    apply ih
    rcases (cons_lt_cons_iff c c _ _).mp h with h | h
    · exact absurd h (lt_irrefl _)
    · exact h.2

theorem cut_cons_head (c : Byte) (r : GoString) : ∃ t, cut (c :: r) = c :: t := by
  unfold cut
  by_cases hc : c = slash
  · exact ⟨[], by simp [hc]⟩
  · exact ⟨cut r, by simp [hc]⟩

/-- Cutting is monotone, and two remainders are cut to the same segment only
when the segment is a folder marker. -/
theorem cut_mono (r1 r2 : GoString) (h : r1 < r2) :
    cut r1 < cut r2 ∨ (cut r1 = cut r2 ∧ slash ∈ r1) := by
  induction r1 generalizing r2 with
  | nil =>
    cases r2 with
    | nil => exact absurd h (lt_irrefl _)
    | cons b bs =>
      obtain ⟨t, ht⟩ := cut_cons_head b bs
      left
      rw [ht]
      exact List.nil_lt_cons _ _
  | cons a as ih =>
    cases r2 with
    | nil => exact absurd h (not_lt_nil _)
    | cons b bs =>
      rcases (cons_lt_cons_iff a b as bs).mp h with hab | ⟨hab, hlt⟩
      · obtain ⟨t1, ht1⟩ := cut_cons_head a as
        obtain ⟨t2, ht2⟩ := cut_cons_head b bs
        left
        rw [ht1, ht2]
        exact (cons_lt_cons_iff a b t1 t2).mpr (Or.inl hab)
      · subst hab
        by_cases ha : a = slash
        · right
          unfold cut
          simp [ha]
        · rcases ih bs hlt with h1 | ⟨h1, h2⟩
          · left
            unfold cut
            simp only [ha, if_false]
            exact (cons_lt_cons_iff a a _ _).mpr (Or.inr ⟨rfl, h1⟩)
          · right
            unfold cut
            simp only [ha, if_false]
            exact ⟨by rw [h1], List.mem_cons_of_mem _ h2⟩

theorem isSubtree_iff_mem_segment (pre s : GoString) :
    isSubtree pre s = true ↔ slash ∈ segment pre s := by
  rw [isSubtree_iff, segment_eq_cut, slash_mem_cut]

theorem trimPrefix_lt (pre s1 s2 : GoString) (h1 : HasPrefix s1 pre = true)
    (h2 : HasPrefix s2 pre = true) (h : s1 < s2) : TrimPrefix s1 pre < TrimPrefix s2 pre := by
  rw [trimPrefix_eq_drop s1 pre h1, trimPrefix_eq_drop s2 pre h2]
  have e1 := List.prefix_iff_eq_append.mp ((hasPrefix_iff s1 pre).mp h1)
  have e2 := List.prefix_iff_eq_append.mp ((hasPrefix_iff s2 pre).mp h2)
  apply lt_of_append_lt_append pre
  rw [e1, e2]
  exact h

/-- The segment mapping is monotone on the keys below a prefix, and two keys
share a segment only when it is a folder marker. -/
theorem segment_mono (pre s1 s2 : GoString) (h1 : HasPrefix s1 pre = true)
    (h2 : HasPrefix s2 pre = true) (h : s1 < s2) :
    segment pre s1 < segment pre s2 ∨
      (segment pre s1 = segment pre s2 ∧ isSubtree pre s1 = true) := by
  rw [segment_eq_cut, segment_eq_cut, isSubtree_iff]
  exact cut_mono _ _ (trimPrefix_lt pre s1 s2 h1 h2 h)

theorem appended_sorted (pre : GoString) (ks : List (GoString × Value)) (seen : StringSlice)
    (hks : ks.Pairwise (fun a b => a.1 < b.1))
    (hpre : ∀ e ∈ ks, HasPrefix e.1 pre = true) :
    (appended pre [] ks seen).Pairwise (fun a b => a < b) := by
  induction ks generalizing seen with
  | nil => simp [appended]
  | cons e rest ih =>
    have hrest := (List.pairwise_cons.mp hks).2
    have hhead := (List.pairwise_cons.mp hks).1
    have hpre' : ∀ e' ∈ rest, HasPrefix e'.1 pre = true :=
      fun e' he' => hpre e' (List.mem_cons_of_mem _ he')
    have he : HasPrefix e.1 pre = true := hpre e (List.mem_cons_self _ _)
    rw [appended_nil_cons]
    by_cases hd : isSubtree pre e.1 = true
    · rw [if_pos hd]
      by_cases hs : segment pre e.1 ∈ seen
      · rw [if_pos hs]
        exact ih seen hrest hpre'
      · rw [if_neg hs, List.pairwise_cons]
        refine ⟨?_, ih _ hrest hpre'⟩
        intro x hx
        obtain ⟨e', he', hseg, hns⟩ := mem_appended pre rest _ x hx
        rcases segment_mono pre e.1 e'.1 he (hpre' e' he') (hhead e' he') with h | ⟨h, -⟩
        · rw [← hseg]; exact h
        · exfalso
          have hd' : isSubtree pre e'.1 = true := by
            rw [isSubtree_iff_mem_segment, ← h, ← isSubtree_iff_mem_segment]
            exact hd
          apply hns hd'
          rw [← hseg, ← h]
          exact List.mem_cons_self _ _
    · rw [if_neg hd, List.pairwise_cons]
      refine ⟨?_, ih _ hrest hpre'⟩
      intro x hx
      obtain ⟨e', he', hseg, -⟩ := mem_appended pre rest _ x hx
      rcases segment_mono pre e.1 e'.1 he (hpre' e' he') (hhead e' he') with h | ⟨-, h⟩
      · rw [← hseg]; exact h
      · exact absurd h hd

theorem listing_sorted (t : Tree) (pre : GoString) :
    (appended pre [] (t.entries.filter (fun e => HasPrefix e.1 pre)) []).Pairwise
      (fun a b => a < b) := by
  apply appended_sorted
  · exact List.Pairwise.filter _ t.ordered
  · intro e he
    exact (List.mem_filter.mp he).2

theorem listInternal_cases (i : InmemBackend) (ctx : Context) (pre : GoString) :
    (i.ListPaginatedInternal ctx pre [] (-1)).1 = [] ∨
      (i.ListPaginatedInternal ctx pre [] (-1)).1
        = appended pre [] (i.root.entries.filter (fun e => HasPrefix e.1 pre)) [] := by
  by_cases hlist : i.failList = 0
  · cases hctx : ctx.Err with
    | none =>
      right
      rw [listInternal_ok i ctx pre hlist hctx]
    | some err =>
      left
      unfold InmemBackend.ListPaginatedInternal
      simp [hlist, hctx]
  · left
    unfold InmemBackend.ListPaginatedInternal
    simp [hlist]

/-- C9: for every backend state, context and prefix, the sequence `List`
returns is strictly ascending in byte-wise lexicographic order, so it has no
element twice. The child segment is monotone on the stored keys below the
prefix: a smaller key has a smaller or equal segment. -/
theorem list_strictly_ascending (i : InmemBackend) (ctx : Context) (p : GoString) :
    ((i.List ctx p).1.1).Pairwise (fun a b => a < b) ∧
      ((i.List ctx p).1.1).Nodup ∧
      (∀ k1 k2 : GoString, p <+: k1 → p <+: k2 → k1 < k2 → child p k1 ≤ child p k2) := by
  have hsorted : ((i.List ctx p).1.1).Pairwise (fun a b => a < b) := by
    rw [list_eq]
    simp only
    rcases listInternal_cases i ctx p with h | h
    · rw [h]; exact List.Pairwise.nil
    · rw [h]; exact listing_sorted i.root p
  refine ⟨hsorted, ?_, ?_⟩
  · exact hsorted.imp (fun h => ne_of_lt h)
  · intro k1 k2 h1 h2 hlt
    have hp1 := (hasPrefix_iff k1 p).mpr h1
    have hp2 := (hasPrefix_iff k2 p).mpr h2
    rw [← segment_eq_child p k1 hp1, ← segment_eq_child p k2 hp2]
    rcases segment_mono p k1 k2 hp1 hp2 hlt with h | ⟨h, -⟩
    · exact le_of_lt h
    · exact le_of_eq h

/-! ## Error paths -/

theorem putInternal_disabled (i : InmemBackend) (ctx : Context) (entry : Entry)
    (hput : i.failPut ≠ 0) : i.PutInternal ctx entry = (some Error.PutDisabledError, i) := by
  unfold InmemBackend.PutInternal
  rw [if_pos hput]

theorem putInternal_done (i : InmemBackend) (ctx : Context) (entry : Entry) (err : Error)
    (hput : i.failPut = 0) (hctx : ctx.Err = some err) :
    i.PutInternal ctx entry = (some err, i) := by
  unfold InmemBackend.PutInternal
  simp [hput, hctx]

theorem putInternal_tooLarge (i : InmemBackend) (ctx : Context) (entry : Entry)
    (hput : i.failPut = 0) (hctx : ctx.Err = none)
    (hsize : 0 < i.maxValueSize ∧ i.maxValueSize < (entry.Value.length : Int)) :
    i.PutInternal ctx entry = (some Error.ValueTooLarge, i) := by
  unfold InmemBackend.PutInternal
  simp [hput, hctx, hsize]

/-- `PutInternal` either returns no error, or returns an error and the backend
as it was. -/
theorem putInternal_cases (i : InmemBackend) (ctx : Context) (entry : Entry) :
    i.PutInternal ctx entry = (none, { i with root := i.root.Insert entry.Key entry.Value }) ∨
      ((i.PutInternal ctx entry).1 ≠ none ∧ (i.PutInternal ctx entry).2 = i) := by
  by_cases hput : i.failPut = 0
  · cases hctx : ctx.Err with
    | some err =>
      right
      rw [putInternal_done i ctx entry err hput hctx]
      exact ⟨by simp, rfl⟩
    | none =>
      by_cases hsize : 0 < i.maxValueSize ∧ i.maxValueSize < (entry.Value.length : Int)
      · right
        rw [putInternal_tooLarge i ctx entry hput hctx hsize]
        exact ⟨by simp, rfl⟩
      · left
        apply putInternal_ok i ctx entry hput hctx
        by_contra h
        rw [not_or, not_le, not_le] at h
        exact hsize h
  · right
    rw [putInternal_disabled i ctx entry hput]
    exact ⟨by simp, rfl⟩

theorem deleteInternal_disabled (i : InmemBackend) (ctx : Context) (key : GoString)
    (hdel : i.failDelete ≠ 0) :
    i.DeleteInternal ctx key = (some Error.DeleteDisabledError, i) := by
  unfold InmemBackend.DeleteInternal
  rw [if_pos hdel]

theorem deleteInternal_done (i : InmemBackend) (ctx : Context) (key : GoString) (err : Error)
    (hdel : i.failDelete = 0) (hctx : ctx.Err = some err) :
    i.DeleteInternal ctx key = (some err, i) := by
  unfold InmemBackend.DeleteInternal
  simp [hdel, hctx]

/-- `DeleteInternal` either returns no error, or returns an error and the
backend as it was. -/
theorem deleteInternal_cases (i : InmemBackend) (ctx : Context) (key : GoString) :
    i.DeleteInternal ctx key = (none, { i with root := i.root.Delete key }) ∨
      ((i.DeleteInternal ctx key).1 ≠ none ∧ (i.DeleteInternal ctx key).2 = i) := by
  by_cases hdel : i.failDelete = 0
  · cases hctx : ctx.Err with
    | some err =>
      right
      rw [deleteInternal_done i ctx key err hdel hctx]
      exact ⟨by simp, rfl⟩
    | none =>
      left
      exact deleteInternal_ok i ctx key hdel hctx
  · right
    rw [deleteInternal_disabled i ctx key hdel]
    exact ⟨by simp, rfl⟩

theorem getInternal_disabled (i : InmemBackend) (ctx : Context) (key : GoString)
    (hget : i.failGet ≠ 0) : i.GetInternal ctx key = (none, some Error.GetDisabledError) := by
  unfold InmemBackend.GetInternal
  rw [if_pos hget]

theorem getInternal_done (i : InmemBackend) (ctx : Context) (key : GoString) (err : Error)
    (hget : i.failGet = 0) (hctx : ctx.Err = some err) :
    i.GetInternal ctx key = (none, some err) := by
  unfold InmemBackend.GetInternal
  simp [hget, hctx]

theorem listPaginatedInternal_disabled (i : InmemBackend) (ctx : Context)
    (pre after : GoString) (limit : Int) (hlist : i.failList ≠ 0) :
    i.ListPaginatedInternal ctx pre after limit = ([], some Error.ListDisabledError) := by
  unfold InmemBackend.ListPaginatedInternal
  rw [if_pos hlist]

theorem listPaginatedInternal_done (i : InmemBackend) (ctx : Context)
    (pre after : GoString) (limit : Int) (err : Error) (hlist : i.failList = 0)
    (hctx : ctx.Err = some err) :
    i.ListPaginatedInternal ctx pre after limit = ([], some err) := by
  unfold InmemBackend.ListPaginatedInternal
  simp [hlist, hctx]


/-! ## Setters and the operations of another kind -/

theorem put_failGet (i : InmemBackend) (b : Bool) (ctx : Context) (entry : Entry) :
    (i.FailGet b).Put ctx entry = ((i.Put ctx entry).1, (i.Put ctx entry).2.FailGet b) := by
  rw [put_eq, put_eq]
  unfold InmemBackend.PutInternal InmemBackend.FailGet
  simp only
  split_ifs <;> first | rfl | (cases ctx.Err <;> rfl)

theorem delete_failGet (i : InmemBackend) (b : Bool) (ctx : Context) (key : GoString) :
    (i.FailGet b).Delete ctx key = ((i.Delete ctx key).1, (i.Delete ctx key).2.FailGet b) := by
  rw [delete_eq, delete_eq]
  unfold InmemBackend.DeleteInternal InmemBackend.FailGet
  simp only
  split_ifs <;> first | rfl | (cases ctx.Err <;> rfl)

theorem listPage_failGet (i : InmemBackend) (b : Bool) (ctx : Context)
    (pre after : GoString) (limit : Int) :
    (i.FailGet b).ListPage ctx pre after limit
      = ((i.ListPage ctx pre after limit).1, i.FailGet b) := by
  rw [listPage_eq, listPage_eq]
  rfl

theorem list_failGet (i : InmemBackend) (b : Bool) (ctx : Context) (pre : GoString) :
    (i.FailGet b).List ctx pre = ((i.List ctx pre).1, i.FailGet b) := by
  rw [list_eq, list_eq]
  rfl

theorem delete_failPut (i : InmemBackend) (b : Bool) (ctx : Context) (key : GoString) :
    (i.FailPut b).Delete ctx key = ((i.Delete ctx key).1, (i.Delete ctx key).2.FailPut b) := by
  rw [delete_eq, delete_eq]
  unfold InmemBackend.DeleteInternal InmemBackend.FailPut
  simp only
  split_ifs <;> first | rfl | (cases ctx.Err <;> rfl)

theorem get_failPut (i : InmemBackend) (b : Bool) (ctx : Context) (key : GoString) :
    (i.FailPut b).Get ctx key = ((i.Get ctx key).1, i.FailPut b) := by
  rw [get_eq, get_eq]
  rfl

theorem listPage_failPut (i : InmemBackend) (b : Bool) (ctx : Context)
    (pre after : GoString) (limit : Int) :
    (i.FailPut b).ListPage ctx pre after limit
      = ((i.ListPage ctx pre after limit).1, i.FailPut b) := by
  rw [listPage_eq, listPage_eq]
  rfl

theorem list_failPut (i : InmemBackend) (b : Bool) (ctx : Context) (pre : GoString) :
    (i.FailPut b).List ctx pre = ((i.List ctx pre).1, i.FailPut b) := by
  rw [list_eq, list_eq]
  rfl

theorem put_failDelete (i : InmemBackend) (b : Bool) (ctx : Context) (entry : Entry) :
    (i.FailDelete b).Put ctx entry = ((i.Put ctx entry).1, (i.Put ctx entry).2.FailDelete b) := by
  rw [put_eq, put_eq]
  unfold InmemBackend.PutInternal InmemBackend.FailDelete
  simp only
  split_ifs <;> first | rfl | (cases ctx.Err <;> rfl)

theorem get_failDelete (i : InmemBackend) (b : Bool) (ctx : Context) (key : GoString) :
    (i.FailDelete b).Get ctx key = ((i.Get ctx key).1, i.FailDelete b) := by
  rw [get_eq, get_eq]
  rfl

theorem listPage_failDelete (i : InmemBackend) (b : Bool) (ctx : Context)
    (pre after : GoString) (limit : Int) :
    (i.FailDelete b).ListPage ctx pre after limit
      = ((i.ListPage ctx pre after limit).1, i.FailDelete b) := by
  rw [listPage_eq, listPage_eq]
  rfl

theorem list_failDelete (i : InmemBackend) (b : Bool) (ctx : Context) (pre : GoString) :
    (i.FailDelete b).List ctx pre = ((i.List ctx pre).1, i.FailDelete b) := by
  rw [list_eq, list_eq]
  rfl

theorem put_failList (i : InmemBackend) (b : Bool) (ctx : Context) (entry : Entry) :
    (i.FailList b).Put ctx entry = ((i.Put ctx entry).1, (i.Put ctx entry).2.FailList b) := by
  rw [put_eq, put_eq]
  unfold InmemBackend.PutInternal InmemBackend.FailList
  simp only
  split_ifs <;> first | rfl | (cases ctx.Err <;> rfl)

theorem delete_failList (i : InmemBackend) (b : Bool) (ctx : Context) (key : GoString) :
    (i.FailList b).Delete ctx key = ((i.Delete ctx key).1, (i.Delete ctx key).2.FailList b) := by
  rw [delete_eq, delete_eq]
  unfold InmemBackend.DeleteInternal InmemBackend.FailList
  simp only
  split_ifs <;> first | rfl | (cases ctx.Err <;> rfl)

theorem get_failList (i : InmemBackend) (b : Bool) (ctx : Context) (key : GoString) :
    (i.FailList b).Get ctx key = ((i.Get ctx key).1, i.FailList b) := by
  rw [get_eq, get_eq]
  rfl

theorem put_failGetInTxn (i : InmemBackend) (b : Bool) (ctx : Context) (entry : Entry) :
    (i.FailGetInTxn b).Put ctx entry = ((i.Put ctx entry).1, (i.Put ctx entry).2.FailGetInTxn b) := by
  rw [put_eq, put_eq]
  unfold InmemBackend.PutInternal InmemBackend.FailGetInTxn
  simp only
  split_ifs <;> first | rfl | (cases ctx.Err <;> rfl)

theorem delete_failGetInTxn (i : InmemBackend) (b : Bool) (ctx : Context) (key : GoString) :
    (i.FailGetInTxn b).Delete ctx key = ((i.Delete ctx key).1, (i.Delete ctx key).2.FailGetInTxn b) := by
  rw [delete_eq, delete_eq]
  unfold InmemBackend.DeleteInternal InmemBackend.FailGetInTxn
  simp only
  split_ifs <;> first | rfl | (cases ctx.Err <;> rfl)

theorem get_failGetInTxn (i : InmemBackend) (b : Bool) (ctx : Context) (key : GoString) :
    (i.FailGetInTxn b).Get ctx key = ((i.Get ctx key).1, i.FailGetInTxn b) := by
  rw [get_eq, get_eq]
  rfl

theorem listPage_failGetInTxn (i : InmemBackend) (b : Bool) (ctx : Context)
    (pre after : GoString) (limit : Int) :
    (i.FailGetInTxn b).ListPage ctx pre after limit
      = ((i.ListPage ctx pre after limit).1, i.FailGetInTxn b) := by
  rw [listPage_eq, listPage_eq]
  rfl

theorem list_failGetInTxn (i : InmemBackend) (b : Bool) (ctx : Context) (pre : GoString) :
    (i.FailGetInTxn b).List ctx pre = ((i.List ctx pre).1, i.FailGetInTxn b) := by
  rw [list_eq, list_eq]
  rfl


/-! ## Failure injection -/

theorem failPut_failPut (i : InmemBackend) (a b : Bool) : (i.FailPut a).FailPut b = i.FailPut b :=
  rfl

theorem failGet_failGet (i : InmemBackend) (a b : Bool) : (i.FailGet a).FailGet b = i.FailGet b :=
  rfl

theorem failDelete_failDelete (i : InmemBackend) (a b : Bool) :
    (i.FailDelete a).FailDelete b = i.FailDelete b :=
  rfl

theorem failList_failList (i : InmemBackend) (a b : Bool) :
    (i.FailList a).FailList b = i.FailList b :=
  rfl

/-- C12: after `FailPut(true)` every `Put` returns `PutDisabledError` and
leaves the backend as it was, and likewise `Get` after `FailGet(true)`,
`Delete` after `FailDelete(true)`, `List` and `ListPage` after
`FailList(true)`, each with its own error; after the setter is called with
`false`, a `Put` with a live context and a value within the limit returns no
error again, and so do `Get`, `Delete`, `List` and `ListPage` with a live
context. Calling a setter twice is the same as calling it with the last
value. -/
theorem failure_injection (i : InmemBackend) (ctx : Context) (entry : Entry)
    (key pre after : GoString) (limit : Int) :
    (i.FailPut true).Put ctx entry = (some Error.PutDisabledError, i.FailPut true) ∧
      ((i.FailGet true).Get ctx key).1 = (none, some Error.GetDisabledError) ∧
      (i.FailDelete true).Delete ctx key
        = (some Error.DeleteDisabledError, i.FailDelete true) ∧
      ((i.FailList true).List ctx pre).1 = ([], some Error.ListDisabledError) ∧
      ((i.FailList true).ListPage ctx pre after limit).1
        = ([], some Error.ListDisabledError) ∧
      (ctx.Err = none →
        (i.maxValueSize ≤ 0 ∨ (entry.Value.length : Int) ≤ i.maxValueSize) →
        (((i.FailPut true).FailPut false).Put ctx entry).1 = none) ∧
      (ctx.Err = none →
        (((i.FailGet true).FailGet false).Get ctx key).1
          = ((i.root.Get key).map (fun raw => { Key := key, Value := raw }), none)) ∧
      (ctx.Err = none → (((i.FailDelete true).FailDelete false).Delete ctx key).1 = none) ∧
      (ctx.Err = none →
        (((i.FailList true).FailList false).List ctx pre).1.2 = none ∧
          (((i.FailList true).FailList false).ListPage ctx pre after limit).1.2 = none) ∧
      (∀ a b : Bool,
        (i.FailPut a).FailPut b = i.FailPut b ∧ (i.FailGet a).FailGet b = i.FailGet b ∧
          (i.FailDelete a).FailDelete b = i.FailDelete b ∧
          (i.FailList a).FailList b = i.FailList b) := by
  refine ⟨?_, ?_, ?_, ?_, ?_, ?_, ?_, ?_, ?_, ?_⟩
  · rw [put_eq]
    exact putInternal_disabled (i.FailPut true) ctx entry (by simp [InmemBackend.FailPut])
  · rw [get_eq]
    exact getInternal_disabled (i.FailGet true) ctx key (by simp [InmemBackend.FailGet])
  · rw [delete_eq]
    exact deleteInternal_disabled (i.FailDelete true) ctx key
      (by simp [InmemBackend.FailDelete])
  · rw [list_eq]
    exact listPaginatedInternal_disabled (i.FailList true) ctx pre [] (-1)
      (by simp [InmemBackend.FailList])
  · rw [listPage_eq]
    exact listPaginatedInternal_disabled (i.FailList true) ctx pre after limit
      (by simp [InmemBackend.FailList])
  · intro hctx hsize
    rw [failPut_failPut, put_eq, putInternal_ok (i.FailPut false) ctx entry rfl hctx hsize]
  · intro hctx
    rw [failGet_failGet, get_eq]
    exact getInternal_ok (i.FailGet false) ctx key rfl hctx
  · intro hctx
    rw [failDelete_failDelete, delete_eq, deleteInternal_ok (i.FailDelete false) ctx key rfl hctx]
  · intro hctx
    rw [failList_failList, list_eq, listPage_eq]
    simp only
    rw [listInternal_ok (i.FailList false) ctx pre rfl hctx,
      listPaginatedInternal_ok (i.FailList false) ctx pre after limit rfl hctx]
    exact ⟨rfl, rfl⟩
  · intro a b
    exact ⟨rfl, rfl, rfl, rfl⟩

/-! ## Errors leave the backend alone -/

/-- C13: whenever `Put` or `Delete` returns an error, the backend, and so the
stored entries, are exactly what they were before the call. A `Put` rejected
for its size returns the value-too-large error and a `Get` of the same key
afterwards returns what it returned before; with `k` stored under a limit of 4
bytes, a 5-byte `Put` of `k` leaves the old value readable. -/
theorem error_leaves_entries (i : InmemBackend) (ctx : Context) (entry : Entry)
    (key : GoString) :
    ((i.Put ctx entry).1 ≠ none →
        (i.Put ctx entry).2 = i ∧ (i.Put ctx entry).2.root.entries = i.root.entries) ∧
      ((i.Delete ctx key).1 ≠ none →
        (i.Delete ctx key).2 = i ∧ (i.Delete ctx key).2.root.entries = i.root.entries) ∧
      (i.failPut = 0 → ctx.Err = none →
        0 < i.maxValueSize ∧ i.maxValueSize < (entry.Value.length : Int) →
        (i.Put ctx entry).1 = some Error.ValueTooLarge ∧
          ((i.Put ctx entry).2.Get ctx entry.Key).1 = (i.Get ctx entry.Key).1) ∧
      (({ inmemOf [(str "k", [1])] with maxValueSize := 4 } : InmemBackend).Put ⟨none⟩
          { Key := str "k", Value := [1, 2, 3, 4, 5] }).1 = some Error.ValueTooLarge ∧
      ((({ inmemOf [(str "k", [1])] with maxValueSize := 4 } : InmemBackend).Put ⟨none⟩
          { Key := str "k", Value := [1, 2, 3, 4, 5] }).2.Get ⟨none⟩ (str "k")).1
        = (some { Key := str "k", Value := [1] }, none) := by
  refine ⟨?_, ?_, ?_, by decide, by decide⟩
  · intro h
    rw [put_eq] at h ⊢
    rcases putInternal_cases i ctx entry with h1 | ⟨-, h1⟩
    · rw [h1] at h
      exact absurd rfl h
    · rw [h1]
      exact ⟨rfl, rfl⟩
  · intro h
    rw [delete_eq] at h ⊢
    rcases deleteInternal_cases i ctx key with h1 | ⟨-, h1⟩
    · rw [h1] at h
      exact absurd rfl h
    · rw [h1]
      exact ⟨rfl, rfl⟩
  · intro hput hctx hsize
    rw [put_eq, putInternal_tooLarge i ctx entry hput hctx hsize]
    exact ⟨rfl, rfl⟩

/-! ## Cancellation -/

/-- C14: when the context is done at call time, with error `err`, and the
operation's flag is off, `Put` and `Delete` return `err` and leave the backend
as it was, `Get` returns a nil entry with `err`, and `List` and `ListPage`
return a nil slice with `err`, whatever the walk collected. -/
theorem done_context (i : InmemBackend) (ctx : Context) (err : Error) (entry : Entry)
    (key pre after : GoString) (limit : Int) (hctx : ctx.Err = some err) :
    (i.failPut = 0 → i.Put ctx entry = (some err, i)) ∧
      (i.failDelete = 0 → i.Delete ctx key = (some err, i)) ∧
      (i.failGet = 0 → (i.Get ctx key).1 = (none, some err)) ∧
      (i.failList = 0 → (i.List ctx pre).1 = ([], some err)) ∧
      (i.failList = 0 → (i.ListPage ctx pre after limit).1 = ([], some err)) := by
  refine ⟨?_, ?_, ?_, ?_, ?_⟩
  · intro h
    rw [put_eq]
    exact putInternal_done i ctx entry err h hctx
  · intro h
    rw [delete_eq]
    exact deleteInternal_done i ctx key err h hctx
  · intro h
    rw [get_eq]
    exact getInternal_done i ctx key err h hctx
  · intro h
    rw [list_eq]
    exact listPaginatedInternal_done i ctx pre [] (-1) err h hctx
  · intro h
    rw [listPage_eq]
    exact listPaginatedInternal_done i ctx pre after limit err h hctx

theorem done_context_witness :
    ((inmemOf [(str "a", [1]), (str "b", [2])]).List ⟨none⟩ (str "")).1
        = ([str "a", str "b"], none) ∧
      ((inmemOf [(str "a", [1]), (str "b", [2])]).List ⟨some Error.Canceled⟩ (str "")).1
        = ([], some Error.Canceled) ∧
      ((inmemOf [(str "a", [1]), (str "b", [2])]).ListPage ⟨some Error.Canceled⟩ (str "")
          (str "") 1).1 = ([], some Error.Canceled) ∧
      ((inmemOf [(str "a", [1]), (str "b", [2])]).Get ⟨some Error.Canceled⟩ (str "a")).1
        = (none, some Error.Canceled) ∧
      (inmemOf [(str "a", [1]), (str "b", [2])]).Put ⟨some Error.Canceled⟩
          { Key := str "c", Value := [3] }
        = (some Error.Canceled, inmemOf [(str "a", [1]), (str "b", [2])]) ∧
      (inmemOf [(str "a", [1]), (str "b", [2])]).Delete ⟨some Error.Canceled⟩ (str "a")
        = (some Error.Canceled, inmemOf [(str "a", [1]), (str "b", [2])]) :=
  have h := done_context (inmemOf [(str "a", [1]), (str "b", [2])]) ⟨some Error.Canceled⟩
    Error.Canceled { Key := str "c", Value := [3] } (str "a") (str "") (str "") 1 rfl
  ⟨by decide, h.2.2.2.1 rfl, h.2.2.2.2 rfl, h.2.2.1 rfl, h.1 rfl, h.2.1 rfl⟩


/-! ## Independence of the flags -/

/-- C19: each setter stores `1` or `0` in its own flag and changes nothing
else: the stored entries, the other four flags, the size limit, the permit pool
and `logOps` stay as they are. A flag of another kind does not change an
operation: after `FailPut(b)` the operations `Get`, `Delete`, `List` and
`ListPage` return what they return without the call, and leave the backend the
same up to that flag; likewise after `FailGet(b)`, `FailDelete(b)` and
`FailList(b)` for the operations of the other kinds, and after
`FailGetInTxn(b)` for all five operations. -/
theorem flags_independent (i : InmemBackend) (b : Bool) (ctx : Context) (entry : Entry)
    (key pre after : GoString) (limit : Int) :
    ((i.FailPut b).failPut = (if b then 1 else 0) ∧
        (i.FailPut b).root = i.root ∧ (i.FailPut b).failGet = i.failGet ∧
        (i.FailPut b).failDelete = i.failDelete ∧ (i.FailPut b).failList = i.failList ∧
        (i.FailPut b).failGetInTxn = i.failGetInTxn ∧
        (i.FailPut b).maxValueSize = i.maxValueSize ∧
        (i.FailPut b).permitPool = i.permitPool ∧ (i.FailPut b).logOps = i.logOps) ∧
      ((i.FailGet b).failGet = (if b then 1 else 0) ∧
        (i.FailGet b).root = i.root ∧ (i.FailGet b).failPut = i.failPut ∧
        (i.FailGet b).failDelete = i.failDelete ∧ (i.FailGet b).failList = i.failList ∧
        (i.FailGet b).failGetInTxn = i.failGetInTxn ∧
        (i.FailGet b).maxValueSize = i.maxValueSize ∧
        (i.FailGet b).permitPool = i.permitPool ∧ (i.FailGet b).logOps = i.logOps) ∧
      ((i.FailDelete b).failDelete = (if b then 1 else 0) ∧
        (i.FailDelete b).root = i.root ∧ (i.FailDelete b).failPut = i.failPut ∧
        (i.FailDelete b).failGet = i.failGet ∧ (i.FailDelete b).failList = i.failList ∧
        (i.FailDelete b).failGetInTxn = i.failGetInTxn ∧
        (i.FailDelete b).maxValueSize = i.maxValueSize ∧
        (i.FailDelete b).permitPool = i.permitPool ∧ (i.FailDelete b).logOps = i.logOps) ∧
      ((i.FailList b).failList = (if b then 1 else 0) ∧
        (i.FailList b).root = i.root ∧ (i.FailList b).failPut = i.failPut ∧
        (i.FailList b).failGet = i.failGet ∧ (i.FailList b).failDelete = i.failDelete ∧
        (i.FailList b).failGetInTxn = i.failGetInTxn ∧
        (i.FailList b).maxValueSize = i.maxValueSize ∧
        (i.FailList b).permitPool = i.permitPool ∧ (i.FailList b).logOps = i.logOps) ∧
      ((i.FailGetInTxn b).failGetInTxn = (if b then 1 else 0) ∧
        (i.FailGetInTxn b).root = i.root ∧ (i.FailGetInTxn b).failPut = i.failPut ∧
        (i.FailGetInTxn b).failGet = i.failGet ∧
        (i.FailGetInTxn b).failDelete = i.failDelete ∧
        (i.FailGetInTxn b).failList = i.failList ∧
        (i.FailGetInTxn b).maxValueSize = i.maxValueSize ∧
        (i.FailGetInTxn b).permitPool = i.permitPool ∧
        (i.FailGetInTxn b).logOps = i.logOps) ∧
      (((i.FailPut b).Get ctx key).1 = (i.Get ctx key).1 ∧
        (i.FailPut b).Delete ctx key = ((i.Delete ctx key).1, (i.Delete ctx key).2.FailPut b) ∧
        ((i.FailPut b).List ctx pre).1 = (i.List ctx pre).1 ∧
        ((i.FailPut b).ListPage ctx pre after limit).1 = (i.ListPage ctx pre after limit).1) ∧
      ((i.FailGet b).Put ctx entry = ((i.Put ctx entry).1, (i.Put ctx entry).2.FailGet b) ∧
        (i.FailGet b).Delete ctx key = ((i.Delete ctx key).1, (i.Delete ctx key).2.FailGet b) ∧
        ((i.FailGet b).List ctx pre).1 = (i.List ctx pre).1 ∧
        ((i.FailGet b).ListPage ctx pre after limit).1 = (i.ListPage ctx pre after limit).1) ∧
      (((i.FailDelete b).Get ctx key).1 = (i.Get ctx key).1 ∧
        (i.FailDelete b).Put ctx entry
          = ((i.Put ctx entry).1, (i.Put ctx entry).2.FailDelete b) ∧
        ((i.FailDelete b).List ctx pre).1 = (i.List ctx pre).1 ∧
        ((i.FailDelete b).ListPage ctx pre after limit).1
          = (i.ListPage ctx pre after limit).1) ∧
      (((i.FailList b).Get ctx key).1 = (i.Get ctx key).1 ∧
        (i.FailList b).Put ctx entry = ((i.Put ctx entry).1, (i.Put ctx entry).2.FailList b) ∧
        (i.FailList b).Delete ctx key
          = ((i.Delete ctx key).1, (i.Delete ctx key).2.FailList b)) ∧
      (((i.FailGetInTxn b).Get ctx key).1 = (i.Get ctx key).1 ∧
        (i.FailGetInTxn b).Put ctx entry
          = ((i.Put ctx entry).1, (i.Put ctx entry).2.FailGetInTxn b) ∧
        (i.FailGetInTxn b).Delete ctx key
          = ((i.Delete ctx key).1, (i.Delete ctx key).2.FailGetInTxn b) ∧
        ((i.FailGetInTxn b).List ctx pre).1 = (i.List ctx pre).1 ∧
        ((i.FailGetInTxn b).ListPage ctx pre after limit).1
          = (i.ListPage ctx pre after limit).1) := by
  refine ⟨⟨rfl, rfl, rfl, rfl, rfl, rfl, rfl, rfl, rfl⟩, ⟨rfl, rfl, rfl, rfl, rfl, rfl, rfl, rfl, rfl⟩,
    ⟨rfl, rfl, rfl, rfl, rfl, rfl, rfl, rfl, rfl⟩, ⟨rfl, rfl, rfl, rfl, rfl, rfl, rfl, rfl, rfl⟩,
    ⟨rfl, rfl, rfl, rfl, rfl, rfl, rfl, rfl, rfl⟩, ?_, ?_, ?_, ?_, ?_⟩
  · refine ⟨?_, delete_failPut i b ctx key, ?_, ?_⟩
    · rw [get_failPut]
    · rw [list_failPut]
    · rw [listPage_failPut]
  · refine ⟨put_failGet i b ctx entry, delete_failGet i b ctx key, ?_, ?_⟩
    · rw [list_failGet]
    · rw [listPage_failGet]
  · refine ⟨?_, put_failDelete i b ctx entry, ?_, ?_⟩
    · rw [get_failDelete]
    · rw [list_failDelete]
    · rw [listPage_failDelete]
  · refine ⟨?_, put_failList i b ctx entry, delete_failList i b ctx key⟩
    rw [get_failList]
  · refine ⟨?_, put_failGetInTxn i b ctx entry, delete_failGetInTxn i b ctx key, ?_, ?_⟩
    · rw [get_failGetInTxn]
    · rw [list_failGetInTxn]
    · rw [listPage_failGetInTxn]

/-! ## Permits -/

theorem containsNonPrintableChars_false {σ : Type} (IsPrint : Rune → Bool)
    (e : StorageEncoding σ) (key : GoString) :
    e.containsNonPrintableChars IsPrint key = false ↔ ∀ r ∈ Runes key, IsPrint r = true := by
  rw [← Bool.not_eq_true, containsNonPrintableChars_iff]
  constructor
  · intro h r hr
    by_contra hp
    exact h ⟨r, hr, by simpa using hp⟩
  · rintro h ⟨r, hr, hp⟩
    rw [h r hr] at hp
    exact absurd hp (by simp)

theorem guardPut_accepted {σ : Type} (IsPrint : Rune → Bool) (b : Backend σ) (s : σ)
    (ctx : Context) (entry : Entry) (hvalid : ValidString entry.Key = true)
    (hprint : ∀ r ∈ Runes entry.Key, IsPrint r = true) :
    StorageEncoding.Put IsPrint { Backend := b } s ctx entry = b.Put s ctx entry := by
  unfold StorageEncoding.Put
  simp [hvalid, (containsNonPrintableChars_false IsPrint { Backend := b } entry.Key).mpr hprint]

theorem guardDelete_accepted {σ : Type} (IsPrint : Rune → Bool) (b : Backend σ) (s : σ)
    (ctx : Context) (key : GoString) (hvalid : ValidString key = true)
    (hprint : ∀ r ∈ Runes key, IsPrint r = true) :
    StorageEncoding.Delete IsPrint { Backend := b } s ctx key = b.Delete s ctx key := by
  unfold StorageEncoding.Delete
  simp [hvalid, (containsNonPrintableChars_false IsPrint { Backend := b } key).mpr hprint]

theorem guardPut_invalid {σ : Type} (IsPrint : Rune → Bool) (b : Backend σ) (s : σ)
    (ctx : Context) (entry : Entry) (hvalid : ¬ValidString entry.Key = true) :
    StorageEncoding.Put IsPrint { Backend := b } s ctx entry = (some Error.ErrNonUTF8, s) := by
  unfold StorageEncoding.Put
  simp [hvalid]

theorem guardPut_unprintable {σ : Type} (IsPrint : Rune → Bool) (b : Backend σ) (s : σ)
    (ctx : Context) (entry : Entry) (hvalid : ValidString entry.Key = true)
    (hprint : ¬∀ r ∈ Runes entry.Key, IsPrint r = true) :
    StorageEncoding.Put IsPrint { Backend := b } s ctx entry
      = (some Error.ErrNonPrintable, s) := by
  have hc : ({ Backend := b } : StorageEncoding σ).containsNonPrintableChars IsPrint
      entry.Key = true := by
    rw [← Bool.not_eq_false, containsNonPrintableChars_false]
    exact hprint
  unfold StorageEncoding.Put
  simp [hvalid, hc]

theorem guardDelete_invalid {σ : Type} (IsPrint : Rune → Bool) (b : Backend σ) (s : σ)
    (ctx : Context) (key : GoString) (hvalid : ¬ValidString key = true) :
    StorageEncoding.Delete IsPrint { Backend := b } s ctx key = (some Error.ErrNonUTF8, s) := by
  unfold StorageEncoding.Delete
  simp [hvalid]

theorem guardDelete_unprintable {σ : Type} (IsPrint : Rune → Bool) (b : Backend σ) (s : σ)
    (ctx : Context) (key : GoString) (hvalid : ValidString key = true)
    (hprint : ¬∀ r ∈ Runes key, IsPrint r = true) :
    StorageEncoding.Delete IsPrint { Backend := b } s ctx key
      = (some Error.ErrNonPrintable, s) := by
  have hc : ({ Backend := b } : StorageEncoding σ).containsNonPrintableChars IsPrint
      key = true := by
    rw [← Bool.not_eq_false, containsNonPrintableChars_false]
    exact hprint
  unfold StorageEncoding.Delete
  simp [hvalid, hc]

/-- C15: for every wrapped backend `b` and a key that is valid UTF-8 and all
printable, the guard's `Put` and `Delete` return what `b`'s return and leave
the state `b`'s leave; the guard's `Get`, `List` and `ListPage` are `b`'s, for
every argument. A wrapped backend that records its calls records the one call,
with the arguments the guard received. -/
theorem guard_transparent {σ : Type} (IsPrint : Rune → Bool) (b : Backend σ) (s : σ)
    (ctx : Context) (key : GoString) (v : Value) (hvalid : ValidString key = true)
    (hprint : ∀ r ∈ Runes key, IsPrint r = true) :
    (NewStorageEncoding IsPrint b).Put s ctx { Key := key, Value := v }
        = b.Put s ctx { Key := key, Value := v } ∧
      (NewStorageEncoding IsPrint b).Delete s ctx key = b.Delete s ctx key ∧
      (∀ (t : σ) (c : Context) (k : GoString),
        (NewStorageEncoding IsPrint b).Get t c k = b.Get t c k) ∧
      (∀ (t : σ) (c : Context) (pre : GoString),
        (NewStorageEncoding IsPrint b).List t c pre = b.List t c pre) ∧
      (∀ (t : σ) (c : Context) (pre after : GoString) (limit : Int),
        (NewStorageEncoding IsPrint b).ListPage t c pre after limit
          = b.ListPage t c pre after limit) ∧
      (∀ log : List Call,
        (NewStorageEncoding IsPrint recordingBackend).Put log ctx { Key := key, Value := v }
            = (none, log ++ [Call.Put ctx { Key := key, Value := v }]) ∧
          (NewStorageEncoding IsPrint recordingBackend).Delete log ctx key
            = (none, log ++ [Call.Delete ctx key])) := by
  refine ⟨guardPut_accepted IsPrint b s ctx _ hvalid hprint,
    guardDelete_accepted IsPrint b s ctx key hvalid hprint, fun _ _ _ => rfl,
    fun _ _ _ => rfl, fun _ _ _ _ _ => rfl, ?_⟩
  intro log
  exact ⟨guardPut_accepted IsPrint recordingBackend log ctx _ hvalid hprint,
    guardDelete_accepted IsPrint recordingBackend log ctx key hvalid hprint⟩

theorem guard_transparent_witness :
    (NewStorageEncoding isPrintASCII InmemBackend.asBackend).Put (inmemOf []) ⟨none⟩
        { Key := str "a/b", Value := [1] }
        = InmemBackend.asBackend.Put (inmemOf []) ⟨none⟩ { Key := str "a/b", Value := [1] } ∧
      (NewStorageEncoding isPrintASCII InmemBackend.asBackend).Put (inmemOf []) ⟨none⟩
        { Key := str "a/b", Value := [1] } = (none, inmemOf [(str "a/b", [1])]) ∧
      (NewStorageEncoding isPrintASCII InmemBackend.asBackend).Get
        (inmemOf [([0xFF], [1])]) ⟨none⟩ [0xFF]
        = ((some { Key := [0xFF], Value := [1] }, none), inmemOf [([0xFF], [1])]) :=
  ⟨(guard_transparent isPrintASCII InmemBackend.asBackend (inmemOf []) ⟨none⟩ (str "a/b") [1]
      (by decide) (by decide)).1, by decide, by decide⟩

/-! ## Wrapping the guard -/

theorem guardPut_twice {σ : Type} (IsPrint : Rune → Bool) (b : Backend σ) (s : σ)
    (ctx : Context) (entry : Entry) :
    StorageEncoding.Put IsPrint { Backend := NewStorageEncoding IsPrint b } s ctx entry
      = StorageEncoding.Put IsPrint { Backend := b } s ctx entry := by
  by_cases hvalid : ValidString entry.Key = true
  · by_cases hprint : ∀ r ∈ Runes entry.Key, IsPrint r = true
    · rw [guardPut_accepted IsPrint _ s ctx entry hvalid hprint]
      rfl
    · rw [guardPut_unprintable IsPrint _ s ctx entry hvalid hprint,
        guardPut_unprintable IsPrint _ s ctx entry hvalid hprint]
  · rw [guardPut_invalid IsPrint _ s ctx entry hvalid,
      guardPut_invalid IsPrint _ s ctx entry hvalid]

theorem guardDelete_twice {σ : Type} (IsPrint : Rune → Bool) (b : Backend σ) (s : σ)
    (ctx : Context) (key : GoString) :
    StorageEncoding.Delete IsPrint { Backend := NewStorageEncoding IsPrint b } s ctx key
      = StorageEncoding.Delete IsPrint { Backend := b } s ctx key := by
  by_cases hvalid : ValidString key = true
  · by_cases hprint : ∀ r ∈ Runes key, IsPrint r = true
    · rw [guardDelete_accepted IsPrint _ s ctx key hvalid hprint]
      rfl
    · rw [guardDelete_unprintable IsPrint _ s ctx key hvalid hprint,
        guardDelete_unprintable IsPrint _ s ctx key hvalid hprint]
  · rw [guardDelete_invalid IsPrint _ s ctx key hvalid,
      guardDelete_invalid IsPrint _ s ctx key hvalid]

theorem newStorageEncoding_twice {σ : Type} (IsPrint : Rune → Bool) (b : Backend σ) :
    NewStorageEncoding IsPrint (NewStorageEncoding IsPrint b) = NewStorageEncoding IsPrint b := by
  have hput : StorageEncoding.Put IsPrint { Backend := NewStorageEncoding IsPrint b }
      = StorageEncoding.Put IsPrint { Backend := b } := by
    funext s ctx entry
    exact guardPut_twice IsPrint b s ctx entry
  have hdel : StorageEncoding.Delete IsPrint { Backend := NewStorageEncoding IsPrint b }
      = StorageEncoding.Delete IsPrint { Backend := b } := by
    funext s ctx key
    exact guardDelete_twice IsPrint b s ctx key
  show ({ Put := _, Get := _, Delete := _, List := _, ListPage := _, purgemonster := _ } :
    Backend σ) = { Put := _, Get := _, Delete := _, List := _, ListPage := _, purgemonster := _ }
  rw [hput, hdel]
  rfl

/-- C16: wrapping the guard in a second guard gives the same backend as one
guard: `Put`, `Delete`, `Get`, `List` and `ListPage` of the double guard return
what those of the single guard return and leave the wrapped state the same, for
every argument, and `Purge` and `SetEnabled` of the double guard are the
wrapped backend's when it has them and do nothing when it has not. A wrapped
backend that records its calls records one call for one call on the double
guard. -/
theorem guard_idempotent {σ : Type} (IsPrint : Rune → Bool) (b : Backend σ) (s : σ)
    (ctx : Context) (entry : Entry) (key pre after : GoString) (limit : Int)
    (enabled : Bool) :
    NewStorageEncoding IsPrint (NewStorageEncoding IsPrint b) = NewStorageEncoding IsPrint b ∧
      (NewStorageEncoding IsPrint (NewStorageEncoding IsPrint b)).Put s ctx entry
        = (NewStorageEncoding IsPrint b).Put s ctx entry ∧
      (NewStorageEncoding IsPrint (NewStorageEncoding IsPrint b)).Delete s ctx key
        = (NewStorageEncoding IsPrint b).Delete s ctx key ∧
      (NewStorageEncoding IsPrint (NewStorageEncoding IsPrint b)).Get s ctx key
        = b.Get s ctx key ∧
      (NewStorageEncoding IsPrint (NewStorageEncoding IsPrint b)).List s ctx pre
        = b.List s ctx pre ∧
      (NewStorageEncoding IsPrint (NewStorageEncoding IsPrint b)).ListPage s ctx pre after limit
        = b.ListPage s ctx pre after limit ∧
      (∀ pm : ToggleablePurgemonster σ, b.purgemonster = some pm →
        StorageEncoding.Purge { Backend := NewStorageEncoding IsPrint b } s ctx
            = pm.Purge s ctx ∧
          StorageEncoding.SetEnabled { Backend := NewStorageEncoding IsPrint b } s enabled
            = pm.SetEnabled s enabled) ∧
      (b.purgemonster = none →
        StorageEncoding.Purge { Backend := NewStorageEncoding IsPrint b } s ctx = s ∧
          StorageEncoding.SetEnabled { Backend := NewStorageEncoding IsPrint b } s enabled
            = s) ∧
      (∀ log : List Call,
        StorageEncoding.Purge
            { Backend := NewStorageEncoding IsPrint (NewStorageEncoding IsPrint recordingBackend) }
            log ctx = log ++ [Call.Purge ctx] ∧
          StorageEncoding.SetEnabled
            { Backend := NewStorageEncoding IsPrint (NewStorageEncoding IsPrint recordingBackend) }
            log enabled = log ++ [Call.SetEnabled enabled] ∧
          (ValidString entry.Key = true → (∀ r ∈ Runes entry.Key, IsPrint r = true) →
            (NewStorageEncoding IsPrint (NewStorageEncoding IsPrint recordingBackend)).Put
              log ctx entry = (none, log ++ [Call.Put ctx entry]))) := by
  refine ⟨newStorageEncoding_twice IsPrint b, guardPut_twice IsPrint b s ctx entry,
    guardDelete_twice IsPrint b s ctx key, rfl, rfl, rfl, ?_, ?_, ?_⟩
  · intro pm hpm
    simp only [StorageEncoding.Purge, StorageEncoding.SetEnabled, NewStorageEncoding, hpm]
    exact ⟨trivial, trivial⟩
  · intro hpm
    simp only [StorageEncoding.Purge, StorageEncoding.SetEnabled, NewStorageEncoding, hpm]
    exact ⟨trivial, trivial⟩
  · intro log
    refine ⟨rfl, rfl, ?_⟩
    intro hvalid hprint
    rw [newStorageEncoding_twice]
    exact guardPut_accepted IsPrint recordingBackend log ctx entry hvalid hprint

/-! ## Optional capabilities -/

/-- C17: `StorageEncoding.Purge` and `StorageEncoding.SetEnabled(x)` are the
wrapped backend's `Purge` and `SetEnabled(x)`, applied once to the same
arguments, when the wrapped backend has the capability, and leave the wrapped
state as it is when it has not. A wrapped backend that records its calls
records exactly the one call; the in-memory backend, which has no such methods,
is left as it is. -/
theorem purge_forwarding {σ : Type} (b : Backend σ) (s : σ) (ctx : Context) (x : Bool) :
    (∀ pm : ToggleablePurgemonster σ, b.purgemonster = some pm →
        StorageEncoding.Purge { Backend := b } s ctx = pm.Purge s ctx ∧
          StorageEncoding.SetEnabled { Backend := b } s x = pm.SetEnabled s x) ∧
      (b.purgemonster = none →
        StorageEncoding.Purge { Backend := b } s ctx = s ∧
          StorageEncoding.SetEnabled { Backend := b } s x = s) ∧
      (∀ log : List Call,
        StorageEncoding.Purge { Backend := recordingBackend } log ctx
            = log ++ [Call.Purge ctx] ∧
          StorageEncoding.SetEnabled { Backend := recordingBackend } log x
            = log ++ [Call.SetEnabled x] ∧
          StorageEncoding.Purge { Backend := { recordingBackend with purgemonster := none } }
            log ctx = log ∧
          StorageEncoding.SetEnabled
            { Backend := { recordingBackend with purgemonster := none } } log x = log) ∧
      (∀ i : InmemBackend,
        StorageEncoding.Purge { Backend := InmemBackend.asBackend } i ctx = i ∧
          StorageEncoding.SetEnabled { Backend := InmemBackend.asBackend } i x = i) := by
  refine ⟨?_, ?_, fun _ => ⟨rfl, rfl, rfl, rfl⟩, fun _ => ⟨rfl, rfl⟩⟩
  · intro pm hpm
    simp only [StorageEncoding.Purge, StorageEncoding.SetEnabled, hpm]
    exact ⟨trivial, trivial⟩
  · intro hpm
    simp only [StorageEncoding.Purge, StorageEncoding.SetEnabled, hpm]
    exact ⟨trivial, trivial⟩

/-! ## The keys the guard lets through -/

theorem guardPut_keys (IsPrint : Rune → Bool) (i : InmemBackend) (ctx : Context)
    (entry : Entry) (k : GoString)
    (hk : k ∈ ((NewStorageEncoding IsPrint InmemBackend.asBackend).Put i ctx entry).2.keys) :
    k ∈ i.keys ∨
      (k = entry.Key ∧ ValidString k = true ∧ ∀ r ∈ Runes k, IsPrint r = true) := by
  have hk' : k ∈ (StorageEncoding.Put IsPrint { Backend := InmemBackend.asBackend } i ctx
      entry).2.keys := hk
  by_cases hvalid : ValidString entry.Key = true
  · by_cases hprint : ∀ r ∈ Runes entry.Key, IsPrint r = true
    · rw [guardPut_accepted IsPrint _ i ctx entry hvalid hprint] at hk'
      have hk2 : k ∈ (i.Put ctx entry).2.keys := hk'
      rw [put_eq] at hk2
      rcases putInternal_cases i ctx entry with h | ⟨-, h⟩
      · rw [h] at hk2
        obtain ⟨e, he, hfst⟩ := List.mem_map.mp hk2
        rcases (Tree.mem_insert i.root entry.Key entry.Value e).mp he with h1 | ⟨h1, -⟩
        · right
          rw [← hfst, h1]
          exact ⟨rfl, hvalid, hprint⟩
        · left
          exact List.mem_map.mpr ⟨e, h1, hfst⟩
      · rw [h] at hk2
        exact Or.inl hk2
    · rw [guardPut_unprintable IsPrint _ i ctx entry hvalid hprint] at hk'
      exact Or.inl hk'
  · rw [guardPut_invalid IsPrint _ i ctx entry hvalid] at hk'
    exact Or.inl hk'

theorem guardDelete_keys (IsPrint : Rune → Bool) (i : InmemBackend) (ctx : Context)
    (key k : GoString)
    (hk : k ∈ ((NewStorageEncoding IsPrint InmemBackend.asBackend).Delete i ctx key).2.keys) :
    k ∈ i.keys := by
  have hk' : k ∈ (StorageEncoding.Delete IsPrint { Backend := InmemBackend.asBackend } i ctx
      key).2.keys := hk
  by_cases hvalid : ValidString key = true
  · by_cases hprint : ∀ r ∈ Runes key, IsPrint r = true
    · rw [guardDelete_accepted IsPrint _ i ctx key hvalid hprint] at hk'
      have hk2 : k ∈ (i.Delete ctx key).2.keys := hk'
      rw [delete_eq] at hk2
      rcases deleteInternal_cases i ctx key with h | ⟨-, h⟩
      · rw [h] at hk2
        obtain ⟨e, he, hfst⟩ := List.mem_map.mp hk2
        exact List.mem_map.mpr ⟨e, ((Tree.mem_delete i.root key e).mp he).1, hfst⟩
      · rw [h] at hk2
        exact hk2
    · rw [guardDelete_unprintable IsPrint _ i ctx key hvalid hprint] at hk'
      exact hk'
  · rw [guardDelete_invalid IsPrint _ i ctx key hvalid] at hk'
    exact hk'

theorem runGuard_keys (IsPrint : Rune → Bool) (calls : List GuardCall) (i : InmemBackend)
    (hi : ∀ k ∈ i.keys, ValidString k = true ∧ ∀ r ∈ Runes k, IsPrint r = true) :
    ∀ k ∈ (runGuard IsPrint calls i).keys,
      ValidString k = true ∧ ∀ r ∈ Runes k, IsPrint r = true := by
  induction calls generalizing i with
  | nil => exact hi
  | cons c rest ih =>
    cases c with
    | Put ctx entry =>
      rw [runGuard]
      apply ih
      intro k hk
      rcases guardPut_keys IsPrint i ctx entry k hk with h | ⟨-, h⟩
      · exact hi k h
      · exact h
    | Delete ctx key =>
      rw [runGuard]
      apply ih
      intro k hk
      exact hi k (guardDelete_keys IsPrint i ctx key k hk)

/-- C18, as stated, fails: a `Put` of the empty key through the guard on a
backend that `NewInmem` has just built is accepted and stores the empty key. -/
theorem stored_key_may_be_empty :
    ¬(∀ (IsPrint : Rune → Bool) (calls : List GuardCall) (parallel : Nat)
        (logAllOps : GoString) (conf : List (GoString × GoString)) (b : InmemBackend),
        NewInmem parallel logAllOps conf = .ok b →
        ∀ k ∈ (runGuard IsPrint calls b).keys,
          k ≠ [] ∧ ValidString k = true ∧ ∀ r ∈ Runes k, IsPrint r = true) := by
  intro h
  have h1 := h isPrintASCII [GuardCall.Put ⟨none⟩ { Key := [], Value := [1] }] 128 [] []
    (inmemOf []) rfl [] (by decide)
  exact h1.1 rfl

/-- C18, amended: in every state reached from a backend that `NewInmem` has
just built by a sequence of `Put` and `Delete` calls issued through the
encoding guard, every stored key is valid UTF-8 and has only characters that
`unicode.IsPrint` accepts. -/
theorem stored_keys_valid (IsPrint : Rune → Bool) (calls : List GuardCall) (parallel : Nat)
    (logAllOps : GoString) (conf : List (GoString × GoString)) (b : InmemBackend)
    (hb : NewInmem parallel logAllOps conf = .ok b) :
    ∀ k ∈ (runGuard IsPrint calls b).keys,
      ValidString k = true ∧ ∀ r ∈ Runes k, IsPrint r = true := by
  apply runGuard_keys
  intro k hk
  obtain ⟨hroot, -⟩ := newInmem_fields hb
  unfold InmemBackend.keys at hk
  rw [hroot] at hk
  simp [Tree.New] at hk

theorem stored_keys_valid_witness :
    (∀ k ∈ (runGuard isPrintASCII
          [GuardCall.Put ⟨none⟩ { Key := str "a/b", Value := [1] },
            GuardCall.Put ⟨none⟩ { Key := [0x61, 0x09], Value := [2] },
            GuardCall.Put ⟨none⟩ { Key := [0xFF], Value := [3] },
            GuardCall.Put ⟨none⟩ { Key := str "c", Value := [4] },
            GuardCall.Delete ⟨none⟩ (str "c")] (inmemOf [])).keys,
        ValidString k = true ∧ ∀ r ∈ Runes k, isPrintASCII r = true) ∧
      (runGuard isPrintASCII
          [GuardCall.Put ⟨none⟩ { Key := str "a/b", Value := [1] },
            GuardCall.Put ⟨none⟩ { Key := [0x61, 0x09], Value := [2] },
            GuardCall.Put ⟨none⟩ { Key := [0xFF], Value := [3] },
            GuardCall.Put ⟨none⟩ { Key := str "c", Value := [4] },
            GuardCall.Delete ⟨none⟩ (str "c")] (inmemOf [])).keys = [str "a/b"] :=
  ⟨stored_keys_valid isPrintASCII _ 128 [] [] (inmemOf []) rfl, by decide⟩

/-! ## Pagination -/

theorem le_getLast_of_sorted (A : StringSlice) (x : GoString)
    (hA : A.Pairwise (fun a b => a < b)) (hlast : A.getLast? = some x) :
    ∀ a ∈ A, a ≤ x := by
  obtain ⟨A', rfl⟩ := List.getLast?_eq_some_iff.mp hlast
  intro a ha
  rcases List.mem_append.mp ha with h | h
  · exact le_of_lt ((List.pairwise_append.mp hA).2.2 a h x (List.mem_singleton.mpr rfl))
  · rw [List.mem_singleton.mp h]

/-- In a strictly ascending listing, the elements greater than the last
element of an initial part are the rest of the listing. -/
theorem filter_gt_getLast (A B : StringSlice) (x : GoString)
    (hL : (A ++ B).Pairwise (fun a b => a < b)) (hlast : A.getLast? = some x) :
    (A ++ B).filter (fun y => x < y) = B := by
  obtain ⟨hA, -, hAB⟩ := List.pairwise_append.mp hL
  have hxA : x ∈ A := by
    obtain ⟨A', rfl⟩ := List.getLast?_eq_some_iff.mp hlast
    exact List.mem_append.mpr (Or.inr (List.mem_singleton.mpr rfl))
  rw [List.filter_append]
  have h1 : A.filter (fun y => x < y) = [] := by
    rw [List.filter_eq_nil_iff]
    intro a ha
    have := le_getLast_of_sorted A x hA hlast a ha
    simpa using this
  have h2 : B.filter (fun y => x < y) = B := by
    rw [List.filter_eq_self]
    intro b hb
    simpa using hAB x hxA b hb
  rw [h1, h2, List.nil_append]

theorem pageFrom_of_ne_nil (after : GoString) (limit : Int) (listing : StringSlice)
    (hafter : after ≠ []) (hlimit : 0 < limit) :
    pageFrom after limit listing
      = (listing.filter (fun y => after < y)).take limit.toNat := by
  unfold pageFrom
  simp [hafter, hlimit]

theorem pageFrom_nil (limit : Int) (listing : StringSlice) (hlimit : 0 < limit) :
    pageFrom [] limit listing = listing.take limit.toNat := by
  unfold pageFrom
  simp [hlimit]

theorem paginate_succ (ctx : Context) (p : GoString) (n : Int) (fuel : Nat)
    (after : GoString) (i : InmemBackend) :
    paginate ctx p n (fuel + 1) after i =
      match (i.ListPage ctx p after n).1.1.getLast? with
      | none => some []
      | some last =>
        (paginate ctx p n fuel last (i.ListPage ctx p after n).2).map
          (fun pages => (i.ListPage ctx p after n).1.1 :: pages) := by
  rfl

/-- From a cursor that is the last element of the part of the listing already
returned, the loop returns the rest of the listing, in pages of at most `n`
elements. -/
theorem paginate_rest (i : InmemBackend) (ctx : Context) (p : GoString) (n : Int)
    (hn : 0 < n) (listing : StringSlice)
    (hpage : ∀ after : GoString,
      (i.ListPage ctx p after n).1.1 = pageFrom after n listing ∧
        (i.ListPage ctx p after n).2 = i)
    (hsorted : listing.Pairwise (fun a b => a < b)) (fuel : Nat) :
    ∀ (A B : StringSlice) (after : GoString), listing = A ++ B → A.getLast? = some after →
      after ≠ [] → B.length < fuel →
      ∃ pages, paginate ctx p n fuel after i = some pages ∧ pages.flatten = B ∧
        ∀ pg ∈ pages, pg ≠ [] ∧ (pg.length : Int) ≤ n := by
  induction fuel with
  | zero => intro A B after _ _ _ h; exact absurd h (Nat.not_lt_zero _)
  | succ fuel ih =>
    intro A B after hAB hlast hne hfuel
    have hpg : pageFrom after n listing = B.take n.toNat := by
      rw [pageFrom_of_ne_nil after n listing hne hn, hAB,
        filter_gt_getLast A B after (hAB ▸ hsorted) hlast]
    rw [paginate_succ, (hpage after).1, (hpage after).2, hpg]
    cases hB : B with
    | nil => exact ⟨[], by simp, by simp, by simp⟩
    | cons b bs =>
      have hpos : 0 < n.toNat := by omega
      obtain ⟨m, hm⟩ : ∃ m, n.toNat = m + 1 := ⟨n.toNat - 1, by omega⟩
      have htake : (b :: bs).take n.toNat ≠ [] := by
        rw [hm]; simp
      obtain ⟨last, hl⟩ : ∃ last, ((b :: bs).take n.toNat).getLast? = some last := by
        cases h : ((b :: bs).take n.toNat).getLast? with
        | none => exact absurd (List.getLast?_eq_none_iff.mp h) htake
        | some last => exact ⟨last, rfl⟩
      rw [hl]
      simp only
      have hlastB : last ∈ b :: bs := by
        obtain ⟨ys, hys⟩ := List.getLast?_eq_some_iff.mp hl
        apply List.mem_of_mem_take (n := n.toNat)
        rw [hys]
        exact List.mem_append.mpr (Or.inr (List.mem_singleton.mpr rfl))
      have hafterA : after ∈ A := by
        obtain ⟨ys, hys⟩ := List.getLast?_eq_some_iff.mp hlast
        rw [hys]
        exact List.mem_append.mpr (Or.inr (List.mem_singleton.mpr rfl))
      have hlt : after < last := by
        have := (List.pairwise_append.mp (hAB ▸ hsorted)).2.2 after hafterA last
          (hB ▸ hlastB)
        exact this
      have hlastne : last ≠ [] := by
        intro h
        rw [h] at hlt
        exact not_lt_nil _ hlt
      have hsplit : listing = (A ++ (b :: bs).take n.toNat) ++ (b :: bs).drop n.toNat := by
        rw [List.append_assoc, List.take_append_drop, hAB, hB]
      have hlast' : (A ++ (b :: bs).take n.toNat).getLast? = some last := by
        rw [List.getLast?_append, hl]
        rfl
      have hlen : ((b :: bs).drop n.toNat).length < fuel := by
        rw [List.length_drop]
        rw [hB] at hfuel
        simp only [List.length_cons] at hfuel ⊢
        omega
      obtain ⟨pages, hpages, hflat, hall⟩ := ih _ _ last hsplit hlast' hlastne hlen
      refine ⟨(b :: bs).take n.toNat :: pages, ?_, ?_, ?_⟩
      · rw [hpages]; rfl
      · rw [List.flatten_cons, hflat, List.take_append_drop]
      · intro pg hpg'
        rcases List.mem_cons.mp hpg' with h | h
        · rw [h]
          refine ⟨htake, ?_⟩
          have := List.length_take_le n.toNat (b :: bs)
          omega
        · exact hall pg h

/-- The loop started with the empty cursor on a strictly ascending listing
whose first page does not end in the empty string. -/
theorem paginate_all (i : InmemBackend) (ctx : Context) (p : GoString) (n : Int)
    (hn : 0 < n) (listing : StringSlice)
    (hpage : ∀ after : GoString,
      (i.ListPage ctx p after n).1.1 = pageFrom after n listing ∧
        (i.ListPage ctx p after n).2 = i)
    (hsorted : listing.Pairwise (fun a b => a < b))
    (hfirst : [] ∉ listing ∨ (2 ≤ n ∧ 2 ≤ listing.length)) (fuel : Nat)
    (hfuel : listing.length < fuel) :
    ∃ pages, paginate ctx p n fuel [] i = some pages ∧ pages.flatten = listing ∧
      ∀ pg ∈ pages, pg ≠ [] ∧ (pg.length : Int) ≤ n := by
  obtain ⟨fuel', rfl⟩ : ∃ f, fuel = f + 1 := ⟨fuel - 1, by omega⟩
  rw [paginate_succ, (hpage []).1, (hpage []).2, pageFrom_nil n listing hn]
  cases hL : listing with
  | nil => exact ⟨[], by simp, by simp, by simp⟩
  | cons b bs =>
    obtain ⟨m, hm⟩ : ∃ m, n.toNat = m + 1 := ⟨n.toNat - 1, by omega⟩
    have htake : (b :: bs).take n.toNat ≠ [] := by
      rw [hm]; simp
    obtain ⟨last, hl⟩ : ∃ last, ((b :: bs).take n.toNat).getLast? = some last := by
      cases h : ((b :: bs).take n.toNat).getLast? with
      | none => exact absurd (List.getLast?_eq_none_iff.mp h) htake
      | some last => exact ⟨last, rfl⟩
    rw [hl]
    simp only
    have hlastB : last ∈ b :: bs := by
      obtain ⟨ys, hys⟩ := List.getLast?_eq_some_iff.mp hl
      apply List.mem_of_mem_take (n := n.toNat)
      rw [hys]
      exact List.mem_append.mpr (Or.inr (List.mem_singleton.mpr rfl))
    have hlastne : last ≠ [] := by
      rcases hfirst with h | ⟨h2, h3⟩
      · intro h'
        apply h
        rw [hL, ← h']
        exact hlastB
      · obtain ⟨ys, hys⟩ := List.getLast?_eq_some_iff.mp hl
        have hlen : ((b :: bs).take n.toNat).length = ys.length + 1 := by
          rw [hys]; simp
        rw [List.length_take] at hlen
        rw [hL] at h3
        have hys_ne : ys ≠ [] := by
          intro h0
          rw [h0] at hlen
          simp only [List.length_cons, List.length_nil] at hlen h3
          omega
        obtain ⟨y, hy⟩ := List.exists_mem_of_ne_nil ys hys_ne
        have hsub : ((b :: bs).take n.toNat).Pairwise (fun a b => a < b) :=
          List.Pairwise.sublist (List.take_sublist _ _) (hL ▸ hsorted)
        rw [hys] at hsub
        have hlt := (List.pairwise_append.mp hsub).2.2 y hy last (List.mem_singleton.mpr rfl)
        intro h0
        rw [h0] at hlt
        exact not_lt_nil _ hlt
    have hsplit : listing = (b :: bs).take n.toNat ++ (b :: bs).drop n.toNat := by
      rw [List.take_append_drop, hL]
    have hlen : ((b :: bs).drop n.toNat).length < fuel' := by
      rw [List.length_drop]
      rw [hL] at hfuel
      simp only [List.length_cons] at hfuel ⊢
      omega
    obtain ⟨pages, hpages, hflat, hall⟩ :=
      paginate_rest i ctx p n hn listing hpage hsorted fuel' _ _ last hsplit hl hlastne hlen
    refine ⟨(b :: bs).take n.toNat :: pages, ?_, ?_, ?_⟩
    · rw [hpages]; rfl
    · rw [List.flatten_cons, hflat, List.take_append_drop]
    · intro pg hpg'
      rcases List.mem_cons.mp hpg' with h | h
      · rw [h]
        refine ⟨htake, ?_⟩
        have := List.length_take_le n.toNat (b :: bs)
        omega
      · exact hall pg h


theorem cut_eq_nil (r : GoString) (h : cut r = []) : r = [] := by
  cases r with
  | nil => rfl
  | cons c r =>
    unfold cut at h
    by_cases hc : c = slash
    · rw [if_pos hc] at h
      exact absurd h (List.cons_ne_nil _ _)
    · rw [if_neg hc] at h
      exact absurd h (List.cons_ne_nil _ _)

/-- The empty string is listed under a prefix exactly when the prefix itself
is a stored key. -/
theorem nil_mem_listing_iff (t : Tree) (pre : GoString) :
    [] ∈ appended pre [] (t.entries.filter (fun e => HasPrefix e.1 pre)) [] ↔
      pre ∈ t.entries.map Prod.fst := by
  rw [mem_listing_iff]
  constructor
  · rintro ⟨k, hk, hpre, hchild⟩
    rw [child_eq_cut] at hchild
    have hdrop := cut_eq_nil _ hchild
    have hlen : k.length ≤ pre.length := by
      have := congrArg List.length hdrop
      rw [List.length_drop] at this
      simp only [List.length_nil] at this
      omega
    have : pre = k := List.IsPrefix.eq_of_length_le hpre hlen
    rw [this]
    exact hk
  · intro hk
    refine ⟨pre, hk, List.prefix_refl _, ?_⟩
    rw [child_eq_cut]
    simp [cut]

theorem pageFrom_of_nil (after : GoString) (limit : Int) : pageFrom after limit [] = [] := by
  unfold pageFrom
  simp

/-- In every state `ListPage` returns the page of what `List` returns, which
is strictly ascending, and leaves the backend as it is. -/
theorem listPage_pages (i : InmemBackend) (ctx : Context) (p : GoString) (n : Int) :
    ((i.List ctx p).1.1).Pairwise (fun a b => a < b) ∧
      ([] ∈ (i.List ctx p).1.1 → p ∈ i.keys) ∧
      ∀ after : GoString,
        (i.ListPage ctx p after n).1.1 = pageFrom after n (i.List ctx p).1.1 ∧
          (i.ListPage ctx p after n).2 = i := by
  rw [list_eq]
  simp only
  by_cases hlist : i.failList = 0
  · cases hctx : ctx.Err with
    | none =>
      rw [listInternal_ok i ctx p hlist hctx]
      refine ⟨listing_sorted i.root p, (nil_mem_listing_iff i.root p).mp, ?_⟩
      intro after
      rw [listPage_eq, listPaginatedInternal_ok i ctx p after n hlist hctx]
      exact ⟨rfl, rfl⟩
    | some err =>
      rw [listPaginatedInternal_done i ctx p [] (-1) err hlist hctx]
      refine ⟨List.Pairwise.nil, fun h => absurd h (List.not_mem_nil _), ?_⟩
      intro after
      rw [listPage_eq, listPaginatedInternal_done i ctx p after n err hlist hctx,
        pageFrom_of_nil]
      exact ⟨rfl, rfl⟩
  · rw [listPaginatedInternal_disabled i ctx p [] (-1) hlist]
    refine ⟨List.Pairwise.nil, fun h => absurd h (List.not_mem_nil _), ?_⟩
    intro after
    rw [listPage_eq, listPaginatedInternal_disabled i ctx p after n hlist, pageFrom_of_nil]
    exact ⟨rfl, rfl⟩

theorem paginate_loops (fuel : Nat) :
    paginate ⟨none⟩ (str "a") 1 fuel [] (inmemOf [(str "a", [1]), (str "ab", [2])]) = none := by
  induction fuel with
  | zero => rfl
  | succ fuel ih =>
    have h : (inmemOf [(str "a", [1]), (str "ab", [2])]).ListPage ⟨none⟩ (str "a") [] 1
        = (([[]], none), inmemOf [(str "a", [1]), (str "ab", [2])]) := by decide
    rw [paginate_succ, h]
    simp only [List.getLast?_singleton]
    rw [ih]
    rfl

/-- C11, as stated, fails: with the keys `a` and `ab` stored, `List("a")` is
`""`, `b`; `ListPage("a", "", 1)` is the page `""`, whose last item is the
cursor `""` again, so the loop gets the same page at every call and never
receives an empty page. -/
theorem pagination_may_loop :
    ¬(∀ (i : InmemBackend) (ctx : Context) (p : GoString) (n : Int), 0 < n →
        ∃ (fuel : Nat) (pages : List StringSlice),
          paginate ctx p n fuel [] i = some pages ∧ pages.flatten = (i.List ctx p).1.1) := by
  intro h
  obtain ⟨fuel, pages, hp, -⟩ :=
    h (inmemOf [(str "a", [1]), (str "ab", [2])]) ⟨none⟩ (str "a") 1 (by decide)
  rw [paginate_loops fuel] at hp
  exact absurd hp (by simp)

/-- C11, amended: for every backend state, context, prefix `p` and limit
`n > 0` such that `List(p)` has no empty element (as when `p` itself is not a
stored key), or `n >= 2` and `List(p)` has at least two elements, the loop that calls `ListPage(p, after, n)` from the
empty cursor and moves the cursor to the last item of each page ends with an
empty page after at most as many calls as `List(p)` has elements plus one; the
pages before it are not empty, have at most `n` elements, and their
concatenation is `List(p)` and has no element twice, so every entry of `List(p)`
comes exactly once. -/
theorem pagination_reconstructs (i : InmemBackend) (ctx : Context) (p : GoString) (n : Int)
    (fuel : Nat) (hn : 0 < n)
    (hfirst : [] ∉ (i.List ctx p).1.1 ∨ (2 ≤ n ∧ 2 ≤ (i.List ctx p).1.1.length))
    (hfuel : (i.List ctx p).1.1.length < fuel) :
    (p ∉ i.keys → [] ∉ (i.List ctx p).1.1) ∧
      ∃ pages : List StringSlice,
        paginate ctx p n fuel [] i = some pages ∧ pages.flatten = (i.List ctx p).1.1 ∧
          pages.flatten.Nodup ∧
          (∀ pg ∈ pages, pg ≠ [] ∧ (pg.length : Int) ≤ n) := by
  obtain ⟨hsorted, hnil, hpage⟩ := listPage_pages i ctx p n
  refine ⟨fun h h' => h (hnil h'), ?_⟩
  obtain ⟨pages, hp, hflat, hall⟩ :=
    paginate_all i ctx p n hn _ hpage hsorted hfirst fuel hfuel
  refine ⟨pages, hp, hflat, ?_, hall⟩
  rw [hflat]
  exact hsorted.imp (fun h => ne_of_lt h)

theorem pagination_reconstructs_witness :
    ((str "" ∉ (inmemOf [(str "c", [3]), (str "a", [1]), (str "b", [2])]).keys →
        [] ∉ ((inmemOf [(str "c", [3]), (str "a", [1]), (str "b", [2])]).List ⟨none⟩
          (str "")).1.1) ∧
      ∃ pages : List StringSlice,
        paginate ⟨none⟩ (str "") 2 4 []
            (inmemOf [(str "c", [3]), (str "a", [1]), (str "b", [2])]) = some pages ∧
          pages.flatten
            = ((inmemOf [(str "c", [3]), (str "a", [1]), (str "b", [2])]).List ⟨none⟩
                (str "")).1.1 ∧
          pages.flatten.Nodup ∧
          (∀ pg ∈ pages, pg ≠ [] ∧ (pg.length : Int) ≤ 2)) ∧
      paginate ⟨none⟩ (str "") 2 4 []
          (inmemOf [(str "c", [3]), (str "a", [1]), (str "b", [2])])
        = some [[str "a", str "b"], [str "c"]] ∧
      paginate ⟨none⟩ (str "a") 2 3 [] (inmemOf [(str "a", [1]), (str "ab", [2])])
        = some [[str "", str "b"]] :=
  ⟨pagination_reconstructs (inmemOf [(str "c", [3]), (str "a", [1]), (str "b", [2])]) ⟨none⟩
      (str "") 2 4 (by decide) (Or.inl (by decide)) (by decide),
    by decide, by decide⟩

/-! ## Frames -/

theorem Tree.get_insert_other (t : Tree) (k k' : GoString) (v : Value) (h : k' ≠ k) :
    (t.Insert k v).Get k' = t.Get k' := by
  apply Option.ext
  intro w
  rw [Option.mem_def, Option.mem_def, Tree.get_eq_some_iff, Tree.get_eq_some_iff,
    Tree.mem_insert]
  constructor
  · rintro (h1 | ⟨h1, -⟩)
    · exact absurd (congrArg Prod.fst h1) h
    · exact h1
  · intro h1
    exact Or.inr ⟨h1, h⟩

theorem Tree.get_delete_other (t : Tree) (k k' : GoString) (h : k' ≠ k) :
    (t.Delete k).Get k' = t.Get k' := by
  apply Option.ext
  intro w
  rw [Option.mem_def, Option.mem_def, Tree.get_eq_some_iff, Tree.get_eq_some_iff,
    Tree.mem_delete]
  constructor
  · rintro ⟨h1, -⟩
    exact h1
  · intro h1
    exact ⟨h1, h⟩

/-- `GetInternal` reads the tree, the get flag and the context only. -/
theorem getInternal_congr (i j : InmemBackend) (ctx : Context) (key : GoString)
    (hflag : j.failGet = i.failGet) (hget : j.root.Get key = i.root.Get key) :
    j.GetInternal ctx key = i.GetInternal ctx key := by
  unfold InmemBackend.GetInternal
  rw [hflag, hget]

theorem get_after_put (i : InmemBackend) (ctx ctx' : Context) (entry : Entry)
    (k' : GoString) (h : k' ≠ entry.Key) :
    ((i.Put ctx entry).2.Get ctx' k').1 = (i.Get ctx' k').1 := by
  rw [get_eq, get_eq, put_eq]
  simp only
  rcases putInternal_cases i ctx entry with h1 | ⟨-, h1⟩
  · rw [h1]
    exact getInternal_congr i _ ctx' k' rfl (Tree.get_insert_other i.root entry.Key k' _ h)
  · rw [h1]

theorem get_after_delete (i : InmemBackend) (ctx ctx' : Context) (k k' : GoString)
    (h : k' ≠ k) : ((i.Delete ctx k).2.Get ctx' k').1 = (i.Get ctx' k').1 := by
  rw [get_eq, get_eq, delete_eq]
  simp only
  rcases deleteInternal_cases i ctx k with h1 | ⟨-, h1⟩
  · rw [h1]
    exact getInternal_congr i _ ctx' k' rfl (Tree.get_delete_other i.root k k' h)
  · rw [h1]

/-- What a `Put` leaves behind: the backend as it was, or the backend as it
was with the pair stored in the tree. -/
theorem put_state (i : InmemBackend) (ctx : Context) (entry : Entry) :
    ((i.Put ctx entry).1 = none ∧
        (i.Put ctx entry).2 = { i with root := i.root.Insert entry.Key entry.Value }) ∨
      ((i.Put ctx entry).1 ≠ none ∧ (i.Put ctx entry).2 = i) := by
  rw [put_eq]
  rcases putInternal_cases i ctx entry with h | h
  · left
    rw [h]
    exact ⟨rfl, rfl⟩
  · exact Or.inr h

/-- What a `Delete` leaves behind: the backend as it was, or the backend as it
was with the key removed from the tree. -/
theorem delete_state (i : InmemBackend) (ctx : Context) (key : GoString) :
    ((i.Delete ctx key).1 = none ∧
        (i.Delete ctx key).2 = { i with root := i.root.Delete key }) ∨
      ((i.Delete ctx key).1 ≠ none ∧ (i.Delete ctx key).2 = i) := by
  rw [delete_eq]
  rcases deleteInternal_cases i ctx key with h | h
  · left
    rw [h]
    exact ⟨rfl, rfl⟩
  · exact Or.inr h

/-- C21: a `Put(k, v)` or a `Delete(k)`, successful or not, changes nothing
but key `k`: the stored pairs with another key are the same before and after,
`Get(k')` returns the same result before and after for every key `k'` other than
`k`, and the five flags, the size limit, the permit pool and `logOps` are as
they were; a successful `Put` leaves the backend as it was but for the tree
with the pair inserted, a successful `Delete` as it was but for the tree with
the key removed. `Get`, `List` and `ListPage` return the backend as it was, so
the stored entries and the flags are unchanged. -/
theorem frame_of_writes_and_reads (i : InmemBackend) (ctx ctx' : Context) (k k' : GoString)
    (v : Value) (pre after : GoString) (limit : Int) (hk : k' ≠ k) :
    (((i.Put ctx { Key := k, Value := v }).2.Get ctx' k').1 = (i.Get ctx' k').1 ∧
        (i.Put ctx { Key := k, Value := v }).2.root.Get k' = i.root.Get k') ∧
      (((i.Delete ctx k).2.Get ctx' k').1 = (i.Get ctx' k').1 ∧
        (i.Delete ctx k).2.root.Get k' = i.root.Get k') ∧
      ((i.Put ctx { Key := k, Value := v }).2.failGet = i.failGet ∧
        (i.Put ctx { Key := k, Value := v }).2.failPut = i.failPut ∧
        (i.Put ctx { Key := k, Value := v }).2.failDelete = i.failDelete ∧
        (i.Put ctx { Key := k, Value := v }).2.failList = i.failList ∧
        (i.Put ctx { Key := k, Value := v }).2.failGetInTxn = i.failGetInTxn) ∧
      ((i.Delete ctx k).2.failGet = i.failGet ∧ (i.Delete ctx k).2.failPut = i.failPut ∧
        (i.Delete ctx k).2.failDelete = i.failDelete ∧
        (i.Delete ctx k).2.failList = i.failList ∧
        (i.Delete ctx k).2.failGetInTxn = i.failGetInTxn) ∧
      ((i.Get ctx k).2 = i ∧ (i.List ctx pre).2 = i ∧
        (i.ListPage ctx pre after limit).2 = i) ∧
      ((i.Get ctx k).2.root.entries = i.root.entries ∧
        (i.List ctx pre).2.root.entries = i.root.entries ∧
        (i.ListPage ctx pre after limit).2.root.entries = i.root.entries) ∧
      ((i.Put ctx { Key := k, Value := v }).2.maxValueSize = i.maxValueSize ∧
        (i.Put ctx { Key := k, Value := v }).2.permitPool = i.permitPool ∧
        (i.Put ctx { Key := k, Value := v }).2.logOps = i.logOps ∧
        (i.Delete ctx k).2.maxValueSize = i.maxValueSize ∧
        (i.Delete ctx k).2.permitPool = i.permitPool ∧
        (i.Delete ctx k).2.logOps = i.logOps) ∧
      (∀ e : GoString × Value, e.1 ≠ k →
        ((e ∈ (i.Put ctx { Key := k, Value := v }).2.root.entries ↔ e ∈ i.root.entries) ∧
          (e ∈ (i.Delete ctx k).2.root.entries ↔ e ∈ i.root.entries))) ∧
      (((i.Put ctx { Key := k, Value := v }).1 = none →
          (i.Put ctx { Key := k, Value := v }).2 = { i with root := i.root.Insert k v }) ∧
        ((i.Put ctx { Key := k, Value := v }).1 ≠ none →
          (i.Put ctx { Key := k, Value := v }).2 = i) ∧
        ((i.Delete ctx k).1 = none → (i.Delete ctx k).2 = { i with root := i.root.Delete k }) ∧
        ((i.Delete ctx k).1 ≠ none → (i.Delete ctx k).2 = i)) := by
  have hput := put_state i ctx { Key := k, Value := v }
  have hdel := delete_state i ctx k
  refine ⟨⟨get_after_put i ctx ctx' _ k' hk, ?_⟩, ⟨get_after_delete i ctx ctx' k k' hk, ?_⟩,
    ?_, ?_, ?_, ?_, ?_, ?_, ?_, ?_, ?_, ?_⟩
  · rcases hput with ⟨-, h⟩ | ⟨-, h⟩
    · rw [h]
      exact Tree.get_insert_other i.root k k' v hk
    · rw [h]
  · rcases hdel with ⟨-, h⟩ | ⟨-, h⟩
    · rw [h]
      exact Tree.get_delete_other i.root k k' hk
    · rw [h]
  · rcases hput with ⟨-, h⟩ | ⟨-, h⟩ <;> rw [h] <;> exact ⟨rfl, rfl, rfl, rfl, rfl⟩
  · rcases hdel with ⟨-, h⟩ | ⟨-, h⟩ <;> rw [h] <;> exact ⟨rfl, rfl, rfl, rfl, rfl⟩
  · rw [get_eq, list_eq, listPage_eq]
    exact ⟨rfl, rfl, rfl⟩
  · rw [get_eq, list_eq, listPage_eq]
    exact ⟨rfl, rfl, rfl⟩
  · rcases hput with ⟨-, h⟩ | ⟨-, h⟩ <;> rcases hdel with ⟨-, h'⟩ | ⟨-, h'⟩ <;>
      rw [h, h'] <;> exact ⟨rfl, rfl, rfl, rfl, rfl, rfl⟩
  · intro e he
    constructor
    · rcases hput with ⟨-, h⟩ | ⟨-, h⟩
      · rw [h]
        simp only
        rw [Tree.mem_insert]
        constructor
        · rintro (h1 | ⟨h1, -⟩)
          · exact absurd (congrArg Prod.fst h1) he
          · exact h1
        · intro h1
          exact Or.inr ⟨h1, he⟩
      · rw [h]
    · rcases hdel with ⟨-, h⟩ | ⟨-, h⟩
      · rw [h]
        simp only
        rw [Tree.mem_delete]
        exact ⟨fun h1 => h1.1, fun h1 => ⟨h1, he⟩⟩
      · rw [h]
  · intro hnone
    rcases hput with ⟨-, h⟩ | ⟨hne, -⟩
    · exact h
    · exact absurd hnone hne
  · intro hne
    rcases hput with ⟨hnone, -⟩ | ⟨-, h⟩
    · exact absurd hnone hne
    · exact h
  · intro hnone
    rcases hdel with ⟨-, h⟩ | ⟨hne, -⟩
    · exact h
    · exact absurd hnone hne
  · intro hne
    rcases hdel with ⟨hnone, -⟩ | ⟨-, h⟩
    · exact absurd hnone hne
    · exact h

theorem frame_of_writes_and_reads_witness :
    (((inmemOf [(str "a", [1]), (str "b", [2])]).Put ⟨none⟩
          { Key := str "a", Value := [9] }).2.Get ⟨none⟩ (str "b")).1
        = ((inmemOf [(str "a", [1]), (str "b", [2])]).Get ⟨none⟩ (str "b")).1 ∧
      (((inmemOf [(str "a", [1]), (str "b", [2])]).Put ⟨none⟩
          { Key := str "a", Value := [9] }).2.Get ⟨none⟩ (str "b")).1
        = (some { Key := str "b", Value := [2] }, none) ∧
      (((inmemOf [(str "a", [1]), (str "b", [2])]).Delete ⟨none⟩ (str "a")).2.Get ⟨none⟩
          (str "b")).1 = (some { Key := str "b", Value := [2] }, none) ∧
      ((inmemOf [(str "a", [1]), (str "b", [2])]).Put ⟨none⟩
          { Key := str "a", Value := [9] }).1 = none :=
  ⟨(frame_of_writes_and_reads (inmemOf [(str "a", [1]), (str "b", [2])]) ⟨none⟩ ⟨none⟩
      (str "a") (str "b") [9] (str "") (str "") 0 (by decide)).1.1,
    by decide, by decide, by decide⟩

/-! ## Which error comes first -/

/-- C22: `Put` returns `PutDisabledError` whenever the put flag is set, whatever
the context and the value; with the flag off and a done context it returns the
context's error, whatever the value; with the flag off and a live context it
returns the value-too-large error when the value exceeds a positive limit. `Get`
and `Delete` return their disabled error whenever their flag is set, whatever
the context, and the context's error when the flag is off and the context is
done. -/
theorem put_error_precedence (i : InmemBackend) (ctx : Context) (entry : Entry)
    (key : GoString) :
    (i.failPut ≠ 0 → (i.Put ctx entry).1 = some Error.PutDisabledError) ∧
      (i.failPut = 0 → ∀ err : Error, ctx.Err = some err → (i.Put ctx entry).1 = some err) ∧
      (i.failPut = 0 → ctx.Err = none →
        0 < i.maxValueSize ∧ i.maxValueSize < (entry.Value.length : Int) →
        (i.Put ctx entry).1 = some Error.ValueTooLarge) ∧
      (i.failGet ≠ 0 → (i.Get ctx key).1 = (none, some Error.GetDisabledError)) ∧
      (i.failGet = 0 → ∀ err : Error, ctx.Err = some err →
        (i.Get ctx key).1 = (none, some err)) ∧
      (i.failDelete ≠ 0 → (i.Delete ctx key).1 = some Error.DeleteDisabledError) ∧
      (i.failDelete = 0 → ∀ err : Error, ctx.Err = some err →
        (i.Delete ctx key).1 = some err) ∧
      ((({ inmemOf [] with maxValueSize := 4 } : InmemBackend).FailPut true).Put
          ⟨some Error.Canceled⟩ { Key := str "k", Value := [1, 2, 3, 4, 5] }).1
        = some Error.PutDisabledError ∧
      (({ inmemOf [] with maxValueSize := 4 } : InmemBackend).Put
          ⟨some Error.Canceled⟩ { Key := str "k", Value := [1, 2, 3, 4, 5] }).1
        = some Error.Canceled ∧
      (((inmemOf []).FailGet true).Get ⟨some Error.Canceled⟩ (str "k")).1
        = (none, some Error.GetDisabledError) ∧
      (((inmemOf []).FailDelete true).Delete ⟨some Error.Canceled⟩ (str "k")).1
        = some Error.DeleteDisabledError := by
  refine ⟨?_, ?_, ?_, ?_, ?_, ?_, ?_, by decide, by decide, by decide, by decide⟩
  · intro h
    rw [put_eq, putInternal_disabled i ctx entry h]
  · intro h err hctx
    rw [put_eq, putInternal_done i ctx entry err h hctx]
  · intro h hctx hsize
    rw [put_eq, putInternal_tooLarge i ctx entry h hctx hsize]
  · intro h
    rw [get_eq]
    exact getInternal_disabled i ctx key h
  · intro h err hctx
    rw [get_eq]
    exact getInternal_done i ctx key err h hctx
  · intro h
    rw [delete_eq, deleteInternal_disabled i ctx key h]
  · intro h err hctx
    rw [delete_eq, deleteInternal_done i ctx key err h hctx]

/-! ## The prefix as a stored key -/

/-- A strictly ascending listing that has the empty string starts with it. -/
theorem head_of_nil_mem (listing : StringSlice)
    (hsorted : listing.Pairwise (fun a b => a < b)) (hnil : [] ∈ listing) :
    ∃ rest, listing = [] :: rest := by
  cases listing with
  | nil => exact absurd hnil (List.not_mem_nil _)
  | cons x rest =>
    rcases List.mem_cons.mp hnil with h | h
    · exact ⟨rest, by rw [← h]⟩
    · exact absurd ((List.pairwise_cons.mp hsorted).1 [] h) (not_lt_nil x)

/-- C23, as stated, fails: with the list flag set, `List(p)` returns an error
and a nil slice also when `p` is a stored key. -/
theorem list_of_stored_prefix_may_fail :
    ¬(∀ (i : InmemBackend) (ctx : Context) (p : GoString) (limit : Int), p ∈ i.keys →
        (i.List ctx p).1.1.head? = some [] ∧
          (i.ListPage ctx p [] limit).1.1.head? = some []) := by
  intro h
  have h1 := (h ((inmemOf [(str "a", [1])]).FailList true) ⟨none⟩ (str "a") 0
    (by decide)).1
  revert h1
  decide

/-- C23, amended: with the list flag off and a live context, for every prefix
`p` that is itself a stored key (the empty key under the empty prefix
included), `List(p)` and `ListPage(p, "", limit)` for every `limit` return no
error and a sequence whose first element is the empty string: the empty cursor
keeps the element that is not strictly greater than it. -/
theorem stored_prefix_listed_first (i : InmemBackend) (ctx : Context) (p : GoString)
    (limit : Int) (hlist : i.failList = 0) (hctx : ctx.Err = none) (hp : p ∈ i.keys) :
    (i.List ctx p).1.1.head? = some [] ∧ (i.List ctx p).1.2 = none ∧
      (i.ListPage ctx p [] limit).1.1.head? = some [] ∧
      (i.ListPage ctx p [] limit).1.2 = none ∧
      ((inmemOf [(str "", [1]), (str "a", [2])]).List ⟨none⟩ (str "")).1
        = ([str "", str "a"], none) ∧
      ((inmemOf [(str "", [1]), (str "a", [2])]).ListPage ⟨none⟩ (str "") (str "") 1).1
        = ([str ""], none) := by
  have hmem : [] ∈ appended p [] (i.root.entries.filter (fun e => HasPrefix e.1 p)) [] :=
    (nil_mem_listing_iff i.root p).mpr hp
  obtain ⟨rest, hrest⟩ := head_of_nil_mem _ (listing_sorted i.root p) hmem
  rw [list_eq, listPage_eq]
  simp only
  rw [listInternal_ok i ctx p hlist hctx, listPaginatedInternal_ok i ctx p [] limit hlist hctx,
    hrest]
  refine ⟨rfl, rfl, ?_, rfl, by decide, by decide⟩
  unfold pageFrom
  simp only [true_or, decide_True, List.filter_true]
  by_cases hl : limit > 0
  · rw [if_pos hl]
    obtain ⟨m, hm⟩ : ∃ m, limit.toNat = m + 1 := ⟨limit.toNat - 1, by omega⟩
    rw [hm]
    rfl
  · rw [if_neg hl]
    rfl

theorem stored_prefix_listed_first_witness :
    ((inmemOf [(str "a", [1]), (str "a/b", [2])]).List ⟨none⟩ (str "a")).1.1.head?
        = some [] ∧
      ((inmemOf [(str "a", [1]), (str "a/b", [2])]).List ⟨none⟩ (str "a")).1
        = ([str "", str "/"], none) ∧
      ((inmemOf [(str "a", [1]), (str "a/b", [2])]).ListPage ⟨none⟩ (str "a") (str "") 1).1
        = ([str ""], none) :=
  ⟨(stored_prefix_listed_first (inmemOf [(str "a", [1]), (str "a/b", [2])]) ⟨none⟩ (str "a")
      1 rfl rfl (by decide)).1, by decide, by decide⟩

end Physical
